import Mathlib

/-!
Verification of the grid-world model and pathfinding engine of
terminal-invaders (`src/main.rs`).

The Rust source is shallowly embedded:
* `Square` mirrors `enum Square`;
* `Map` stores the matrix as a list of rows (the source stores a
  `DMatrix` built column-major and transposed, indexed `(i.y, i.x)`;
  row-of-lists with `sq (x, y) = grid[y][x]` is the same observable map);
* machine integers: `usize` coordinates are `Nat`, the `i32` used by
  `in_bounds` and the neighbor offsets is `Int`;
* panics (`fr_char`'s `panic!`, `pf_search`'s `unwrap` on an empty
  queue) become `Except` errors; the `while` loops of `pf_search` and
  `first_move` take an explicit fuel argument;
* the global RNG consumed by `pf_random`'s `choose` is replaced by an
  arbitrary index `k` choosing among the candidates.
-/

namespace TInv

inductive Square where
  | Empty
  | Wall
  | SpawnPoint
  | Destination
deriving DecidableEq, Repr

def Square.to_char : Square → Char
  | .Empty => ' '
  | .Wall => '#'
  | .SpawnPoint => '^'
  | .Destination => '$'

inductive MapError where
  | InvalidMapCharacter
deriving DecidableEq, Repr

/-- `Square::fr_char`; the `panic!()` on an unrecognized character is the
`Except.error` branch. -/
def Square.fr_char (c : Char) : Except MapError Square :=
  match c with
  | ' ' => .ok .Empty
  | '#' => .ok .Wall
  | '^' => .ok .SpawnPoint
  | '$' => .ok .Destination
  | _ => .error .InvalidMapCharacter

/-- Position (`Vector2<usize>`): `(x, y)` = (column, row). -/
abbrev Pos := Nat × Nat

/-- Signed vector (`Vector2<i32>`). -/
abbrev IVec := Int × Int

structure Map where
  grid : List (List Square)
deriving DecidableEq, Repr

def Map.nrows (m : Map) : Nat := m.grid.length

def Map.ncols (m : Map) : Nat := ((m.grid.head?).map List.length).getD 0

/-- `NEIGHBOR4` exactly as in the source: down, right, left, up. -/
def NEIGHBOR4 : List IVec := [(0, 1), (1, 0), (-1, 0), (0, -1)]

/-- `NEIGHBOR8` exactly as in the source, including the repeated
`(-1, -1)` entry in place of a fourth distinct diagonal. -/
def NEIGHBOR8 : List IVec :=
  [(0, 1), (1, 0), (0, -1), (-1, 0), (1, 1), (1, -1), (-1, -1), (-1, -1)]

/-- `str::split('\n')` on the character list: every maximal (possibly
empty) run between newlines, as Rust's `split` yields it. -/
def splitLines : List Char → List (List Char)
  | [] => [[]]
  | c :: cs =>
    if c = '\n' then [] :: splitLines cs
    else
      match splitLines cs with
      | l :: ls => (c :: l) :: ls
      | [] => [[c]]

/-- `Map::new`: split on newlines, drop empty lines, decode characters,
pad every line on the right with `Empty` up to the maximal line length.
The `DMatrix::from_iterator(w, h, ..).transpose()` of the source is the
row-major list of padded lines. -/
def Map.new (desc : String) : Except MapError Map := do
  let ls := (splitLines desc.data).filter (fun l => 0 < l.length)
  let rows ← ls.mapM (fun l => l.mapM Square.fr_char)
  let w := rows.foldl (fun w r => max w r.length) 0
  return ⟨rows.map (fun r => r ++ List.replicate (w - r.length) Square.Empty)⟩

/-- `Map::in_bounds` on signed coordinates. -/
def Map.in_bounds (m : Map) (s : IVec) : Prop :=
  0 ≤ s.1 ∧ 0 ≤ s.2 ∧ s.1 < (m.ncols : Int) ∧ s.2 < (m.nrows : Int)

instance (m : Map) (s : IVec) : Decidable (m.in_bounds s) := by
  unfold Map.in_bounds; infer_instance

/-- `Map::neighbors_offsets`: cast to signed, add each offset, filter by
`in_bounds`, cast back to unsigned. -/
def Map.neighbors_offsets (m : Map) (s : Pos) (offsets : List IVec) : List Pos :=
  (((offsets.map (fun t => ((s.1 : Int) + t.1, (s.2 : Int) + t.2))).filter
      (fun t => decide (m.in_bounds t))).map
    (fun t => (t.1.toNat, t.2.toNat)))

def Map.neighbors_4 (m : Map) (s : Pos) : List Pos :=
  m.neighbors_offsets s NEIGHBOR4

def Map.neighbors_8 (m : Map) (s : Pos) : List Pos :=
  m.neighbors_offsets s NEIGHBOR8

/-- `Index<Vector2<usize>> for Map`: `grid[(i.y, i.x)]`.  Out-of-range
access (a panic in the source) is given the blocking default `Wall`;
every access the program performs is proved in bounds (`C10`). -/
def Map.sq (m : Map) (p : Pos) : Square :=
  (m.grid.getD p.2 []).getD p.1 Square.Wall

/-- Checked variant of the indexing, `none` exactly where the source's
`Index` impl would panic. -/
def Map.sqq (m : Map) (p : Pos) : Option Square :=
  (m.grid.get? p.2).bind (fun r => r.get? p.1)

/-- Every row has the length the bounds check uses. -/
def Map.Rect (m : Map) : Prop :=
  ∀ row ∈ m.grid, row.length = m.ncols

/-- In-bounds on unsigned coordinates. -/
def Map.nat_in_bounds (m : Map) (p : Pos) : Prop :=
  p.1 < m.ncols ∧ p.2 < m.nrows

instance (m : Map) (p : Pos) : Decidable (m.nat_in_bounds p) := by
  unfold Map.nat_in_bounds; infer_instance

instance (m : Map) : Decidable (m.Rect) := by
  unfold Map.Rect; infer_instance

/-- The candidate list of `pf_random`: 4-neighbors of `s` whose square is
`Empty`. -/
def pf_random_candidates (m : Map) (s : Pos) : List Pos :=
  (m.neighbors_4 s).filter (fun t => decide (m.sq t = Square.Empty))

/-- `pf_random`; `choose(&mut rng)` picks some element of the candidate
iterator, modelled by an arbitrary index `k`, and `unwrap_or(s)` returns
`s` when there is no candidate. -/
def pf_random (m : Map) (s : Pos) (k : Nat) : Pos :=
  ((pf_random_candidates m s).get? (k % (pf_random_candidates m s).length)).getD s

/-- The BFS predecessor map (`HashMap<Vector2<usize>, Option<Vector2<usize>>>`);
insertion conses, lookup takes the most recent binding, which is exactly
the hash map's overwrite behaviour. -/
abbrev Parents := List (Pos × Option Pos)

def pinsert (p : Parents) (k : Pos) (v : Option Pos) : Parents := (k, v) :: p

def plookup (p : Parents) (k : Pos) : Option (Option Pos) :=
  (p.find? (fun e => decide (e.1 = k))).map Prod.snd

def pcontains (p : Parents) (k : Pos) : Bool := (plookup p k).isSome

/-- `first_move`: walk the predecessor chain from `end` back to the
start (the unique key bound to `None`), returning the cell visited just
before the start.  The source's `while let` loop gets a fuel argument;
all its uses supply provably sufficient fuel. -/
def first_move (fuel : Nat) (parents : Parents) (cur prev : Pos) : Pos :=
  match fuel with
  | 0 => prev
  | fuel + 1 =>
    match plookup parents cur with
    | some (some parent) => first_move fuel parents parent cur
    | _ => prev

inductive PfError where
  | NoReachableDestination
  | OutOfFuel
deriving DecidableEq, Repr

/-- The loop of `pf_search`.  State: predecessor map, FIFO queue of
`(cell, Some parent)` entries, current cell and its recorded parent.
`q.pop_front().unwrap()` panicking on the empty queue is the
`NoReachableDestination` error. -/
def pf_loop (m : Map) : Nat → Parents → List (Pos × Option Pos) → Pos → Option Pos →
    Except PfError Pos
  | 0, _, _, _, _ => .error .OutOfFuel
  | fuel + 1, parents, q, cur, parent =>
    if m.sq cur = Square.Destination then
      .ok (first_move ((pinsert parents cur parent).length + 1)
        (pinsert parents cur parent) cur cur)
    else
      match q ++ ((m.neighbors_4 cur).filter (fun t =>
          (decide (m.sq t = Square.Empty) || decide (m.sq t = Square.Destination))
            && !pcontains (pinsert parents cur parent) t)).map (fun t => (t, some cur)) with
      | [] => .error .NoReachableDestination
      | e :: q'' => pf_loop m fuel (pinsert parents cur parent) q'' e.1 e.2

/-- `pf_search`. -/
def pf_search (fuel : Nat) (m : Map) (s : Pos) : Except PfError Pos :=
  pf_loop m fuel [] [] s none

/-- `pf_search` applied `n` times from `s`. -/
def pf_iter (fuel : Nat) (m : Map) (s : Pos) : Nat → Except PfError Pos
  | 0 => .ok s
  | n + 1 => (pf_iter fuel m s n).bind (fun p => pf_search fuel m p)

structure GameState where
  enemies : List Pos
  map : Map
deriving DecidableEq

/-- `GameState::advance`: replace every enemy position, in order, by
`pf_search` of the current position. -/
def GameState.advance (fuel : Nat) (g : GameState) : Except PfError GameState := do
  let es ← g.enemies.mapM (fun e => pf_search fuel g.map e)
  return ⟨es, g.map⟩

/-! ### Spec-side notions: adjacency, traversability, reachability -/

/-- 4-directional adjacency of unsigned positions. -/
def Adj (a b : Pos) : Prop :=
  (a.1 = b.1 ∧ (b.2 = a.2 + 1 ∨ a.2 = b.2 + 1)) ∨
  (a.2 = b.2 ∧ (b.1 = a.1 + 1 ∨ a.1 = b.1 + 1))

/-- A cell an agent may be moved onto: open floor or a destination. -/
def Map.trav (m : Map) (p : Pos) : Prop :=
  m.sq p = Square.Empty ∨ m.sq p = Square.Destination

instance (m : Map) (p : Pos) : Decidable (m.trav p) := by
  unfold Map.trav; infer_instance

instance (a b : Pos) : Decidable (Adj a b) := by
  unfold Adj; infer_instance

/-- `ReachN m a b n`: there is a walk of `n` 4-directional hops from `a`
to `b` whose every cell after `a` is traversable. -/
inductive ReachN (m : Map) (a : Pos) : Pos → Nat → Prop where
  | refl : ReachN m a a 0
  | step {b c : Pos} {n : Nat} :
      ReachN m a b n → Adj b c → m.trav c → ReachN m a c (n + 1)

/-- `k` is the hop-count distance from `a` to `b`. -/
def IsMinDist (m : Map) (a b : Pos) (k : Nat) : Prop :=
  ReachN m a b k ∧ ∀ j, ReachN m a b j → k ≤ j

/-- `t` is a nearest destination of `s`, at distance `k`. -/
def NearestDest (m : Map) (s t : Pos) (k : Nat) : Prop :=
  m.sq t = Square.Destination ∧ IsMinDist m s t k ∧
    ∀ t' k', m.sq t' = Square.Destination → IsMinDist m s t' k' → k ≤ k'

deriving instance DecidableEq for Except

/-! ### Basic lemmas about bounds, neighbors and indexing -/

lemma mem_neighbors_offsets {m : Map} {s : Pos} {offs : List IVec} {x : Pos} :
    x ∈ m.neighbors_offsets s offs ↔
      ∃ o ∈ offs, m.in_bounds ((s.1 : Int) + o.1, (s.2 : Int) + o.2) ∧
        x = (((s.1 : Int) + o.1).toNat, ((s.2 : Int) + o.2).toNat) := by
  simp only [Map.neighbors_offsets, List.mem_map, List.mem_filter, decide_eq_true_eq]
  constructor
  · rintro ⟨t, ⟨⟨o, ho, rfl⟩, hb⟩, rfl⟩
    exact ⟨o, ho, hb, rfl⟩
  · rintro ⟨o, ho, hb, rfl⟩
    exact ⟨_, ⟨⟨o, ho, rfl⟩, hb⟩, rfl⟩

lemma nat_in_bounds_int {m : Map} {p : Pos} :
    m.in_bounds ((p.1 : Int), (p.2 : Int)) ↔ m.nat_in_bounds p := by
  unfold Map.in_bounds Map.nat_in_bounds
  dsimp only
  omega

lemma mem_neighbors_4_iff {m : Map} {s x : Pos} :
    x ∈ m.neighbors_4 s ↔ Adj s x ∧ m.nat_in_bounds x := by
  rw [Map.neighbors_4, mem_neighbors_offsets]
  simp only [NEIGHBOR4, List.mem_cons, List.not_mem_nil, or_false]
  obtain ⟨s1, s2⟩ := s
  obtain ⟨x1, x2⟩ := x
  constructor
  · rintro ⟨⟨o1, o2⟩, ho, hb, hx⟩
    unfold Map.in_bounds at hb
    unfold Adj Map.nat_in_bounds
    simp only [Prod.mk.injEq] at hx ho
    obtain ⟨rfl, rfl⟩ := hx
    dsimp only at hb ⊢
    rcases ho with ⟨rfl, rfl⟩ | ⟨rfl, rfl⟩ | ⟨rfl, rfl⟩ | ⟨rfl, rfl⟩ <;>
      exact ⟨by omega, by omega⟩
  · rintro ⟨hadj, hb⟩
    unfold Adj at hadj
    unfold Map.nat_in_bounds at hb
    dsimp only at hadj hb
    rcases hadj with ⟨h1, h2 | h2⟩ | ⟨h1, h2 | h2⟩
    · refine ⟨(0, 1), by tauto, ?_, ?_⟩
      · unfold Map.in_bounds; dsimp only; omega
      · simp only [Prod.mk.injEq]; omega
    · refine ⟨(0, -1), by tauto, ?_, ?_⟩
      · unfold Map.in_bounds; dsimp only; omega
      · simp only [Prod.mk.injEq]; omega
    · refine ⟨(1, 0), by tauto, ?_, ?_⟩
      · unfold Map.in_bounds; dsimp only; omega
      · simp only [Prod.mk.injEq]; omega
    · refine ⟨(-1, 0), by tauto, ?_, ?_⟩
      · unfold Map.in_bounds; dsimp only; omega
      · simp only [Prod.mk.injEq]; omega

lemma adj_symm {a b : Pos} (h : Adj a b) : Adj b a := by
  unfold Adj at *; tauto

lemma adj_ne {a b : Pos} (h : Adj a b) : a ≠ b := by
  unfold Adj at h
  intro he
  subst he
  omega

lemma sq_eq_sqq {m : Map} {p : Pos} (hr : m.Rect) (hp : m.nat_in_bounds p) :
    m.sqq p = some (m.sq p) := by
  obtain ⟨h1, h2⟩ := hp
  unfold Map.sqq Map.sq
  rw [List.getD_eq_get?, List.getD_eq_get?]
  rw [Map.nrows] at h2
  rw [List.get?_eq_get h2]
  have hrow : m.grid.get ⟨p.2, h2⟩ ∈ m.grid := List.get_mem _ _ _
  have hlen : (m.grid.get ⟨p.2, h2⟩).length = m.ncols := hr _ hrow
  simp only [Option.getD_some, Option.bind_some]
  rw [List.get?_eq_get (by omega)]
  simp

lemma sq_ne_wall_in_bounds {m : Map} {p : Pos} (hr : m.Rect)
    (h : m.sq p ≠ Square.Wall) : m.nat_in_bounds p := by
  by_contra hb
  apply h
  unfold Map.sq
  unfold Map.nat_in_bounds at hb
  rw [List.getD_eq_get?, List.getD_eq_get?]
  rcases Nat.lt_or_ge p.2 m.nrows with h2 | h2
  · have h1 : ¬p.1 < m.ncols := fun h1 => hb ⟨h1, h2⟩
    rw [Map.nrows] at h2
    rw [List.get?_eq_get h2]
    have hrow : m.grid.get ⟨p.2, h2⟩ ∈ m.grid := List.get_mem _ _ _
    have hlen : (m.grid.get ⟨p.2, h2⟩).length = m.ncols := hr _ hrow
    simp only [Option.getD_some]
    rw [List.get?_eq_none.mpr (by omega)]
    simp
  · rw [Map.nrows] at h2
    rw [List.get?_eq_none.mpr h2]
    simp

lemma trav_in_bounds {m : Map} {p : Pos} (hr : m.Rect) (h : m.trav p) :
    m.nat_in_bounds p := by
  apply sq_ne_wall_in_bounds hr
  unfold Map.trav at h
  rcases h with h | h <;> simp [h]

/-! ### Claim theorems: C3, C4, C5, C7, C9, C10 -/
/-- C7: for every grid and position, `in_bounds p` holds iff
`0 ≤ p.x < w` and `0 ≤ p.y < h`; in particular column 0 and row 0 are
in bounds. -/
theorem in_bounds_iff (m : Map) (p : IVec) :
    m.in_bounds p ↔ 0 ≤ p.1 ∧ p.1 < (m.ncols : Int) ∧ 0 ≤ p.2 ∧ p.2 < (m.nrows : Int) := by
  unfold Map.in_bounds
  tauto

/-- C4 (code bug): the source's `NEIGHBOR8` does not consist of the four
cardinal directions plus the four diagonals — its last two entries are
both `(-1, -1)` and the diagonal `(-1, 1)` is missing. -/
theorem neighbor8_diagonal_bug :
    NEIGHBOR8.length = 8 ∧ NEIGHBOR8.get? 6 = some (-1, -1) ∧
      NEIGHBOR8.get? 7 = some (-1, -1) ∧ ((-1 : Int), (1 : Int)) ∉ NEIGHBOR8 := by
  decide

/-- C9: if the start cell is already a Destination, the shortest-path
strategy is the identity: `pf_search` terminates immediately and returns
the start. -/
theorem pf_search_identity_at_destination (fuel : Nat) (m : Map) (s : Pos)
    (h : m.sq s = Square.Destination) :
    pf_search (fuel + 1) m s = .ok s := by
  unfold pf_search pf_loop
  rw [if_pos h]
  simp [first_move, plookup, pinsert, List.find?]

theorem pf_search_identity_at_destination_witness :
    Map.sq ⟨[[Square.Destination]]⟩ (0, 0) = Square.Destination ∧
      pf_search 1 ⟨[[Square.Destination]]⟩ (0, 0) = .ok (0, 0) :=
  ⟨by decide, pf_search_identity_at_destination 0 ⟨[[Square.Destination]]⟩ (0, 0) (by decide)⟩

lemma pf_random_candidates_spec {m : Map} {s t : Pos} :
    t ∈ pf_random_candidates m s ↔ Adj s t ∧ m.nat_in_bounds t ∧ m.sq t = Square.Empty := by
  unfold pf_random_candidates
  rw [List.mem_filter, mem_neighbors_4_iff]
  simp
  tauto

lemma pf_random_mem {m : Map} {s : Pos} (k : Nat) (h : pf_random_candidates m s ≠ []) :
    pf_random m s k ∈ pf_random_candidates m s := by
  unfold pf_random
  have hl : 0 < (pf_random_candidates m s).length := List.length_pos.mpr h
  have hk : k % (pf_random_candidates m s).length < (pf_random_candidates m s).length :=
    Nat.mod_lt _ hl
  rw [List.get?_eq_get hk]
  simp only [Option.getD_some]
  exact List.get_mem _ _ _

/-- C3: `pf_random` returns the start exactly when no 4-neighbor is
Empty, and otherwise an in-bounds Empty 4-neighbor of the start — never
a Wall, SpawnPoint or Destination cell, never out of bounds. -/
theorem pf_random_containment (m : Map) (s : Pos) (k : Nat) (hs : m.nat_in_bounds s) :
    (pf_random m s k = s ↔ ∀ t ∈ m.neighbors_4 s, m.sq t ≠ Square.Empty) ∧
    (pf_random m s k ≠ s →
      pf_random m s k ∈ m.neighbors_4 s ∧ Adj s (pf_random m s k) ∧
        m.nat_in_bounds (pf_random m s k) ∧ m.sq (pf_random m s k) = Square.Empty) := by
  have hniff : pf_random_candidates m s = [] ↔ ∀ t ∈ m.neighbors_4 s, m.sq t ≠ Square.Empty := by
    unfold pf_random_candidates
    rw [List.filter_eq_nil_iff]
    simp
  constructor
  · constructor
    · intro hres
      rw [← hniff]
      by_contra hne
      have hm := pf_random_mem k hne
      rw [hres] at hm
      have := (pf_random_candidates_spec.mp hm).1
      exact adj_ne this rfl
    · intro hall
      have hnil : pf_random_candidates m s = [] := hniff.mpr hall
      unfold pf_random
      rw [hnil]
      simp
  · intro hne
    have hcne : pf_random_candidates m s ≠ [] := by
      intro hnil
      apply hne
      unfold pf_random
      rw [hnil]
      simp
    have hm := pf_random_mem k hcne
    obtain ⟨ha, hb, hc⟩ := pf_random_candidates_spec.mp hm
    exact ⟨mem_neighbors_4_iff.mpr ⟨ha, hb⟩, ha, hb, hc⟩

theorem pf_random_containment_witness :
    Map.nat_in_bounds ⟨[[Square.Empty, Square.Empty]]⟩ (0, 0) ∧
      ((pf_random ⟨[[Square.Empty, Square.Empty]]⟩ (0, 0) 0 = (0, 0) ↔
          ∀ t ∈ Map.neighbors_4 ⟨[[Square.Empty, Square.Empty]]⟩ (0, 0),
            Map.sq ⟨[[Square.Empty, Square.Empty]]⟩ t ≠ Square.Empty) ∧
        (pf_random ⟨[[Square.Empty, Square.Empty]]⟩ (0, 0) 0 ≠ (0, 0) →
          pf_random ⟨[[Square.Empty, Square.Empty]]⟩ (0, 0) 0 ∈
              Map.neighbors_4 ⟨[[Square.Empty, Square.Empty]]⟩ (0, 0) ∧
            Adj (0, 0) (pf_random ⟨[[Square.Empty, Square.Empty]]⟩ (0, 0) 0) ∧
            Map.nat_in_bounds ⟨[[Square.Empty, Square.Empty]]⟩
              (pf_random ⟨[[Square.Empty, Square.Empty]]⟩ (0, 0) 0) ∧
            Map.sq ⟨[[Square.Empty, Square.Empty]]⟩
              (pf_random ⟨[[Square.Empty, Square.Empty]]⟩ (0, 0) 0) = Square.Empty)) :=
  ⟨by decide, pf_random_containment ⟨[[Square.Empty, Square.Empty]]⟩ (0, 0) 0 (by decide)⟩

/-- C5: an agent enclosed by Wall cells on all 4-directional sides (and
not itself on a Destination) gets the typed failure
`NoReachableDestination` from the shortest-path strategy — the source's
`unwrap` panic on the exhausted frontier — and stays in place under the
random-walk strategy. -/
theorem enclosed_agent_policy (fuel : Nat) (m : Map) (s : Pos) (k : Nat)
    (hs : m.nat_in_bounds s) (hd : m.sq s ≠ Square.Destination)
    (hw : ∀ t ∈ m.neighbors_4 s, m.sq t = Square.Wall) :
    pf_search (fuel + 1) m s = .error .NoReachableDestination ∧ pf_random m s k = s := by
  constructor
  · unfold pf_search pf_loop
    rw [if_neg hd]
    have hfil : ((m.neighbors_4 s).filter (fun t =>
        (decide (m.sq t = Square.Empty) || decide (m.sq t = Square.Destination))
          && !pcontains (pinsert [] s none) t)) = [] := by
      apply List.filter_eq_nil_iff.mpr
      intro t ht
      simp [hw t ht]
    rw [hfil]
    simp
  · have hnil : pf_random_candidates m s = [] := by
      unfold pf_random_candidates
      apply List.filter_eq_nil_iff.mpr
      intro t ht
      simp [hw t ht]
    unfold pf_random
    rw [hnil]
    simp

theorem enclosed_agent_policy_witness :
    (Map.nat_in_bounds ⟨[[Square.Wall, Square.Wall, Square.Wall],
        [Square.Wall, Square.SpawnPoint, Square.Wall],
        [Square.Wall, Square.Wall, Square.Wall]]⟩ (1, 1) ∧
      Map.sq ⟨[[Square.Wall, Square.Wall, Square.Wall],
        [Square.Wall, Square.SpawnPoint, Square.Wall],
        [Square.Wall, Square.Wall, Square.Wall]]⟩ (1, 1) ≠ Square.Destination ∧
      ∀ t ∈ Map.neighbors_4 ⟨[[Square.Wall, Square.Wall, Square.Wall],
        [Square.Wall, Square.SpawnPoint, Square.Wall],
        [Square.Wall, Square.Wall, Square.Wall]]⟩ (1, 1),
        Map.sq ⟨[[Square.Wall, Square.Wall, Square.Wall],
          [Square.Wall, Square.SpawnPoint, Square.Wall],
          [Square.Wall, Square.Wall, Square.Wall]]⟩ t = Square.Wall) ∧
    (pf_search 1 ⟨[[Square.Wall, Square.Wall, Square.Wall],
        [Square.Wall, Square.SpawnPoint, Square.Wall],
        [Square.Wall, Square.Wall, Square.Wall]]⟩ (1, 1) = .error .NoReachableDestination ∧
      pf_random ⟨[[Square.Wall, Square.Wall, Square.Wall],
        [Square.Wall, Square.SpawnPoint, Square.Wall],
        [Square.Wall, Square.Wall, Square.Wall]]⟩ (1, 1) 0 = (1, 1)) :=
  ⟨⟨by decide, by decide, by decide⟩,
    enclosed_agent_policy 0 _ (1, 1) 0 (by decide) (by decide) (by decide)⟩

/-- C10: the neighbor enumerator works on signed coordinates, so from
any in-bounds cell every yielded neighbor is in-bounds (no wraparound at
column or row 0), and the unchecked grid indexing performed on such
neighbors succeeds: the checked lookup `sqq` is `some` and agrees with
the total `sq`. -/
theorem neighbors_offsets_safe (m : Map) (s : Pos) (offs : List IVec)
    (hr : m.Rect) (hs : m.nat_in_bounds s) :
    ∀ t ∈ m.neighbors_offsets s offs, m.nat_in_bounds t ∧ m.sqq t = some (m.sq t) := by
  intro t ht
  obtain ⟨o, _, hb, rfl⟩ := mem_neighbors_offsets.mp ht
  have hnb : m.nat_in_bounds (((s.1 : Int) + o.1).toNat, ((s.2 : Int) + o.2).toNat) := by
    unfold Map.in_bounds at hb
    unfold Map.nat_in_bounds
    dsimp only at hb ⊢
    omega
  exact ⟨hnb, sq_eq_sqq hr hnb⟩

theorem neighbors_offsets_safe_witness :
    (Map.Rect ⟨[[Square.Empty, Square.Wall], [Square.Destination, Square.Empty]]⟩ ∧
      Map.nat_in_bounds ⟨[[Square.Empty, Square.Wall], [Square.Destination, Square.Empty]]⟩
        (0, 0)) ∧
    ∀ t ∈ Map.neighbors_offsets ⟨[[Square.Empty, Square.Wall], [Square.Destination, Square.Empty]]⟩
        (0, 0) NEIGHBOR8,
      Map.nat_in_bounds ⟨[[Square.Empty, Square.Wall], [Square.Destination, Square.Empty]]⟩ t ∧
        Map.sqq ⟨[[Square.Empty, Square.Wall], [Square.Destination, Square.Empty]]⟩ t =
          some (Map.sq ⟨[[Square.Empty, Square.Wall], [Square.Destination, Square.Empty]]⟩ t) :=
  ⟨⟨by decide, by decide⟩,
    neighbors_offsets_safe _ (0, 0) NEIGHBOR8 (by decide) (by decide)⟩


/-! ### Map construction: C6, C8 -/
lemma except_bind_ok {ε α β : Type} (a : α) (f : α → Except ε β) :
    (Except.ok a >>= f) = f a := rfl

lemma except_bind_error {ε α β : Type} (e : ε) (f : α → Except ε β) :
    ((Except.error e : Except ε α) >>= f) = .error e := rfl

lemma mapM_ok_iff {ε α β : Type} {f : α → Except ε β} {xs : List α} {ys : List β} :
    xs.mapM f = .ok ys ↔ List.Forall₂ (fun x y => f x = .ok y) xs ys := by
  rw [← List.mapM'_eq_mapM]
  induction xs generalizing ys with
  | nil =>
    simp only [List.mapM']
    constructor
    · intro h
      cases h
      exact List.Forall₂.nil
    · intro h
      cases h
      rfl
  | cons x xs ih =>
    simp only [List.mapM']
    cases hfx : f x with
    | error e =>
      rw [except_bind_error]
      constructor
      · intro h; cases h
      · intro h
        cases h with
        | cons hxy _ => rw [hfx] at hxy; cases hxy
    | ok y =>
      rw [except_bind_ok]
      cases hxs : List.mapM' f xs with
      | error e =>
        rw [except_bind_error]
        constructor
        · intro h; cases h
        · intro h
          cases h with
          | cons hxy htail =>
            rw [← ih] at htail
            rw [hxs] at htail
            cases htail
      | ok ys' =>
        rw [except_bind_ok]
        constructor
        · intro h
          cases h
          exact List.Forall₂.cons hfx (ih.mp hxs)
        · intro h
          cases h with
          | cons hxy htail =>
            rw [hfx] at hxy
            cases hxy
            have := ih.mpr htail
            rw [hxs] at this
            cases this
            rfl

lemma mapM_ok_length {ε α β : Type} {f : α → Except ε β} {xs : List α} {ys : List β}
    (h : xs.mapM f = .ok ys) : ys.length = xs.length :=
  (mapM_ok_iff.mp h).length_eq.symm

lemma foldl_max_init_le (l : List Nat) (a : Nat) : a ≤ l.foldl max a := by
  induction l generalizing a with
  | nil => exact le_refl _
  | cons b l ih => exact le_trans (le_max_left a b) (ih (max a b))

lemma le_foldl_max {l : List Nat} {x : Nat} (a : Nat) (h : x ∈ l) : x ≤ l.foldl max a := by
  induction l generalizing a with
  | nil => cases h
  | cons b l ih =>
    rcases List.mem_cons.mp h with rfl | h
    · exact le_trans (le_max_right a x) (foldl_max_init_le l (max a x))
    · exact ih _ h

/-- Inversion of `Map.new`: the parsed rows and the relationship of the
grid to them. -/
lemma map_new_inv {desc : String} {m : Map} (h : Map.new desc = .ok m) :
    ∃ rows, ((splitLines desc.data).filter (fun l => 0 < l.length)).mapM
        (fun l => l.mapM Square.fr_char) = .ok rows ∧
      m = ⟨rows.map (fun r =>
        r ++ List.replicate ((rows.foldl (fun w r => max w r.length) 0) - r.length)
          Square.Empty)⟩ := by
  unfold Map.new at h
  cases hrows : ((splitLines desc.data).filter (fun l => 0 < l.length)).mapM
      (fun l => l.mapM Square.fr_char) with
  | error e =>
    simp only [hrows, except_bind_error] at h
    exact Except.noConfusion h
  | ok rows =>
    simp only [hrows, except_bind_ok] at h
    refine ⟨rows, rfl, ?_⟩
    injection h with h2
    exact h2.symm


lemma forall2_rows_lengths {ls : List (List Char)} {rows : List (List Square)}
    (hf : List.Forall₂ (fun l r => l.mapM Square.fr_char = .ok r) ls rows) :
    rows.map List.length = ls.map List.length := by
  induction hf with
  | nil => rfl
  | cons hxy _ ih =>
    simp only [List.map_cons, ih, List.cons.injEq, and_true]
    exact mapM_ok_length hxy

/-- Shape of every successfully constructed map: rectangular rows, height
the number of non-empty lines, width their maximal length. -/
lemma map_new_shape {desc : String} {m : Map} (h : Map.new desc = .ok m) :
    m.Rect ∧
    m.nrows = ((splitLines desc.data).filter (fun l => 0 < l.length)).length ∧
    m.ncols = (((splitLines desc.data).filter (fun l => 0 < l.length)).map
        List.length).foldl max 0 := by
  obtain ⟨rows, hrows, rfl⟩ := map_new_inv h
  have hf := mapM_ok_iff.mp hrows
  have hlen : rows.map List.length =
      (((splitLines desc.data).filter (fun l => 0 < l.length)).map List.length) :=
    forall2_rows_lengths hf
  have hwm : rows.foldl (fun w r => max w r.length) 0 = (rows.map List.length).foldl max 0 := by
    rw [List.foldl_map]
  have hpadlen : ∀ r ∈ rows,
      (r ++ List.replicate ((rows.foldl (fun w r => max w r.length) 0) - r.length)
        Square.Empty).length = rows.foldl (fun w r => max w r.length) 0 := by
    intro r hr
    have hle : r.length ≤ rows.foldl (fun w r => max w r.length) 0 := by
      rw [hwm]
      exact le_foldl_max 0 (List.mem_map_of_mem _ hr)
    simp only [List.length_append, List.length_replicate]
    omega
  cases rows with
  | nil =>
    have hls : ((splitLines desc.data).filter (fun l => 0 < l.length)) = [] :=
      List.map_eq_nil.mp hlen.symm
    refine ⟨?_, ?_, ?_⟩
    · intro row hrow
      cases hrow
    · simp [Map.nrows, hls]
    · simp [Map.ncols, hls]
  | cons r rs =>
    have hcols : Map.ncols ⟨(r :: rs).map (fun row =>
        row ++ List.replicate (((r :: rs).foldl (fun w r => max w r.length) 0) - row.length)
          Square.Empty)⟩ = (r :: rs).foldl (fun w r => max w r.length) 0 := by
      unfold Map.ncols
      simp only [List.map_cons, List.head?_cons, Option.map_some, Option.getD_some]
      exact hpadlen r (List.mem_cons_self r rs)
    refine ⟨?_, ?_, ?_⟩
    · intro row hrow
      rw [hcols]
      simp only [List.mem_map] at hrow
      obtain ⟨r', hr', rfl⟩ := hrow
      exact hpadlen r' hr'
    · unfold Map.nrows
      simp only [List.length_map]
      exact hf.length_eq.symm
    · rw [hcols, hwm, hlen]

/-- C8: every successfully constructed grid is rectangular — each row's
length equals the maximal non-empty input line length — and its height
is the number of non-empty lines. -/
theorem map_new_rectangular (desc : String) (m : Map) (h : Map.new desc = .ok m) :
    m.Rect ∧
    m.nrows = ((splitLines desc.data).filter (fun l => 0 < l.length)).length ∧
    m.ncols = (((splitLines desc.data).filter (fun l => 0 < l.length)).map
        List.length).foldl max 0 :=
  map_new_shape h

theorem map_new_rectangular_witness :
    Map.new "# \n$" = .ok ⟨[[Square.Wall, Square.Empty], [Square.Destination, Square.Empty]]⟩ ∧
      (Map.Rect ⟨[[Square.Wall, Square.Empty], [Square.Destination, Square.Empty]]⟩ ∧
        Map.nrows ⟨[[Square.Wall, Square.Empty], [Square.Destination, Square.Empty]]⟩ =
          ((splitLines ("# \n$").data).filter (fun l => 0 < l.length)).length ∧
        Map.ncols ⟨[[Square.Wall, Square.Empty], [Square.Destination, Square.Empty]]⟩ =
          (((splitLines ("# \n$").data).filter (fun l => 0 < l.length)).map
            List.length).foldl max 0) :=
  ⟨by decide, map_new_rectangular "# \n$"
    ⟨[[Square.Wall, Square.Empty], [Square.Destination, Square.Empty]]⟩ (by decide)⟩

/-- C6 counterexample: a description with zero non-empty lines does not
fail; construction succeeds with an empty 0-by-0 grid. -/
theorem map_new_empty_succeeds :
    Map.new "" = .ok ⟨[]⟩ ∧ Map.new "\n\n" = .ok ⟨[]⟩ ∧
      Map.nrows ⟨[]⟩ = 0 ∧ Map.ncols ⟨[]⟩ = 0 := by
  decide

/-- C6 (amended): construction never fails for lack of lines; a grid
built from zero non-empty lines has `w = h = 0`, and any other
successfully constructed grid has `w ≥ 1` and `h ≥ 1`. -/
theorem map_new_dims (desc : String) (m : Map) (h : Map.new desc = .ok m) :
    (m.ncols = 0 ∧ m.nrows = 0) ∨ (1 ≤ m.ncols ∧ 1 ≤ m.nrows) := by
  obtain ⟨_, hn, hc⟩ := map_new_shape h
  cases hls : ((splitLines desc.data).filter (fun l => 0 < l.length)) with
  | nil =>
    left
    rw [hls] at hn hc
    exact ⟨hc, hn⟩
  | cons l ls' =>
    right
    rw [hls] at hn hc
    have hl : 0 < l.length := by
      have := List.mem_filter.mp (hls ▸ List.mem_cons_self l ls')
      simpa using this.2
    constructor
    · rw [hc]
      have : l.length ≤ ((l :: ls').map List.length).foldl max 0 :=
        le_foldl_max 0 (List.mem_map_of_mem _ (List.mem_cons_self l ls'))
      omega
    · rw [hn]
      simp

theorem map_new_dims_witness :
    Map.new "$" = .ok ⟨[[Square.Destination]]⟩ ∧
      ((Map.ncols ⟨[[Square.Destination]]⟩ = 0 ∧ Map.nrows ⟨[[Square.Destination]]⟩ = 0) ∨
        (1 ≤ Map.ncols ⟨[[Square.Destination]]⟩ ∧ 1 ≤ Map.nrows ⟨[[Square.Destination]]⟩)) :=
  ⟨by decide, map_new_dims "$" ⟨[[Square.Destination]]⟩ (by decide)⟩


end TInv

namespace TInv

lemma plookup_mem {P : Parents} {k : Pos} {v : Option Pos} (h : plookup P k = some v) :
    (k, v) ∈ P := by
  unfold plookup at h
  cases hf : P.find? (fun e => decide (e.1 = k)) with
  | none => rw [hf] at h; cases h
  | some e =>
    rw [hf] at h
    have hmem := List.mem_of_find?_eq_some hf
    have hpred := List.find?_some hf
    simp only [decide_eq_true_eq] at hpred
    simp only [Option.map_some', Option.some.injEq] at h
    obtain ⟨e1, e2⟩ := e
    dsimp only at hpred h
    rw [← hpred, ← h]
    exact hmem

/-- A position the search may produce: the start itself or an in-bounds
traversable cell. -/
def mOK (m : Map) (s : Pos) (x : Pos) : Prop :=
  x = s ∨ (m.nat_in_bounds x ∧ m.trav x)

lemma first_move_mem (f : Nat) (P : Parents) (cur prev : Pos) :
    first_move f P cur prev = prev ∨ ∃ v, (first_move f P cur prev, v) ∈ P := by
  induction f generalizing cur prev with
  | zero => left; rfl
  | succ f ih =>
    cases hl : plookup P cur with
    | none =>
      left
      unfold first_move
      rw [hl]
    | some w =>
      cases w with
      | none =>
        left
        unfold first_move
        rw [hl]
      | some parent =>
        have hred : first_move (f + 1) P cur prev = first_move f P parent cur := by
          conv_lhs => unfold first_move
          rw [hl]
        rw [hred]
        rcases ih parent cur with h | h
        · right
          rw [h]
          exact ⟨some parent, plookup_mem hl⟩
        · right
          exact h

lemma pf_loop_ok_mOK {m : Map} {s : Pos} :
    ∀ (fuel : Nat) (parents : Parents) (q : List (Pos × Option Pos)) (cur : Pos)
      (parent : Option Pos) (r : Pos),
      (∀ e ∈ parents, mOK m s e.1) →
      (∀ e ∈ q, mOK m s e.1) →
      mOK m s cur →
      pf_loop m fuel parents q cur parent = .ok r →
      mOK m s r := by
  intro fuel
  induction fuel with
  | zero =>
    intro parents q cur parent r _ _ _ hres
    cases hres
  | succ fuel ih =>
    intro parents q cur parent r hP hq hcur hres
    unfold pf_loop at hres
    by_cases hd : m.sq cur = Square.Destination
    · rw [if_pos hd] at hres
      injection hres with hr
      subst hr
      rcases first_move_mem ((pinsert parents cur parent).length + 1)
          (pinsert parents cur parent) cur cur with h | ⟨v, hv⟩
      · rw [h]; exact hcur
      · rcases List.mem_cons.mp hv with he | he
        · rw [Prod.mk.injEq] at he
          rw [he.1]
          exact hcur
        · exact hP _ he
    · rw [if_neg hd] at hres
      cases hnew : q ++ ((m.neighbors_4 cur).filter (fun t =>
          (decide (m.sq t = Square.Empty) || decide (m.sq t = Square.Destination))
            && !pcontains (pinsert parents cur parent) t)).map (fun t => (t, some cur)) with
      | nil =>
        rw [hnew] at hres
        cases hres
      | cons e q'' =>
        rw [hnew] at hres
        have hq' : ∀ x ∈ e :: q'', mOK m s x.1 := by
          rw [← hnew]
          intro x hx
          rcases List.mem_append.mp hx with hx | hx
          · exact hq _ hx
          · simp only [List.mem_map] at hx
            obtain ⟨t, ht, rfl⟩ := hx
            have ht' := List.mem_filter.mp ht
            obtain ⟨hadj, hnb⟩ := mem_neighbors_4_iff.mp ht'.1
            have htrav : m.trav t := by
              have := ht'.2
              simp only [Bool.and_eq_true, Bool.or_eq_true, decide_eq_true_eq] at this
              exact this.1
            exact Or.inr ⟨hnb, htrav⟩
        refine ih _ q'' e.1 e.2 r ?_ ?_ ?_ hres
        · intro x hx
          rcases List.mem_cons.mp hx with rfl | hx
          · exact hcur
          · exact hP _ hx
        · intro x hx
          exact hq' x (List.mem_cons_of_mem _ hx)
        · exact hq' e (List.mem_cons_self _ _)

lemma pf_search_ok_mOK {fuel : Nat} {m : Map} {s r : Pos}
    (h : pf_search fuel m s = .ok r) : mOK m s r :=
  pf_loop_ok_mOK fuel [] [] s none r (by intro e he; cases he) (by intro e he; cases he)
    (Or.inl rfl) h

lemma advance_inv {fuel : Nat} {g g' : GameState} (h : g.advance fuel = .ok g') :
    ∃ es, g.enemies.mapM (fun e => pf_search fuel g.map e) = .ok es ∧ g' = ⟨es, g.map⟩ := by
  unfold GameState.advance at h
  cases hes : g.enemies.mapM (fun e => pf_search fuel g.map e) with
  | error e =>
    simp only [hes, except_bind_error] at h
    exact Except.noConfusion h
  | ok es =>
    simp only [hes, except_bind_ok] at h
    refine ⟨es, rfl, ?_⟩
    injection h with h2
    exact h2.symm

lemma forall2_search_strengthen {m : Map} {fuel : Nat} {l l' : List Pos}
    (hf : List.Forall₂ (fun p p' => pf_search fuel m p = .ok p') l l')
    (hinv : ∀ p ∈ l, m.nat_in_bounds p ∧ m.sq p ≠ Square.Wall) :
    List.Forall₂ (fun p p' => pf_search fuel m p = .ok p' ∧
      (p' = p ∨ m.sq p' = Square.Empty ∨ m.sq p' = Square.Destination) ∧
      m.nat_in_bounds p' ∧ m.sq p' ≠ Square.Wall) l l' := by
  induction hf with
  | nil => exact List.Forall₂.nil
  | @cons x y l l' hxy htail ih =>
    have hx := hinv x (List.mem_cons_self _ _)
    refine List.Forall₂.cons ?_ (ih (fun p hp => hinv p (List.mem_cons_of_mem _ hp)))
    rcases pf_search_ok_mOK hxy with rfl | ⟨hnb, htrav⟩
    · exact ⟨hxy, Or.inl rfl, hx.1, hx.2⟩
    · have hnw : m.sq y ≠ Square.Wall := by
        rcases htrav with h | h <;> rw [h] <;> decide
      exact ⟨hxy, Or.inr htrav, hnb, hnw⟩

/-- C2: `advance` replaces every agent position, in the fixed iteration
order, by the shortest-path strategy's result on `(grid, position)`;
whenever it succeeds, every new position is in-bounds and not a Wall
cell, being either the unchanged old position or an Empty/Destination
cell — so the agent invariant is preserved. -/
theorem advance_preserves_invariant (fuel : Nat) (g g' : GameState)
    (hinv : ∀ p ∈ g.enemies, g.map.nat_in_bounds p ∧ g.map.sq p ≠ Square.Wall)
    (h : g.advance fuel = .ok g') :
    g'.map = g.map ∧
      List.Forall₂ (fun p p' => pf_search fuel g.map p = .ok p' ∧
        (p' = p ∨ g.map.sq p' = Square.Empty ∨ g.map.sq p' = Square.Destination) ∧
        g.map.nat_in_bounds p' ∧ g.map.sq p' ≠ Square.Wall) g.enemies g'.enemies := by
  obtain ⟨es, hes, rfl⟩ := advance_inv h
  exact ⟨rfl, forall2_search_strengthen (mapM_ok_iff.mp hes) hinv⟩

end TInv

namespace TInv

theorem advance_preserves_invariant_witness :
    (∀ p ∈ (⟨[(1, 0), (0, 0)], ⟨[[Square.Destination, Square.Empty]]⟩⟩ : GameState).enemies,
        Map.nat_in_bounds ⟨[[Square.Destination, Square.Empty]]⟩ p ∧
          Map.sq ⟨[[Square.Destination, Square.Empty]]⟩ p ≠ Square.Wall) ∧
    GameState.advance 5 (⟨[(1, 0), (0, 0)], ⟨[[Square.Destination, Square.Empty]]⟩⟩ : GameState) =
      .ok (⟨[(0, 0), (0, 0)], ⟨[[Square.Destination, Square.Empty]]⟩⟩ : GameState) ∧
    ((⟨[(0, 0), (0, 0)], ⟨[[Square.Destination, Square.Empty]]⟩⟩ : GameState).map =
        (⟨[(1, 0), (0, 0)], ⟨[[Square.Destination, Square.Empty]]⟩⟩ : GameState).map ∧
      List.Forall₂ (fun p p' => pf_search 5 ⟨[[Square.Destination, Square.Empty]]⟩ p = .ok p' ∧
        (p' = p ∨ Map.sq ⟨[[Square.Destination, Square.Empty]]⟩ p' = Square.Empty ∨
          Map.sq ⟨[[Square.Destination, Square.Empty]]⟩ p' = Square.Destination) ∧
        Map.nat_in_bounds ⟨[[Square.Destination, Square.Empty]]⟩ p' ∧
        Map.sq ⟨[[Square.Destination, Square.Empty]]⟩ p' ≠ Square.Wall)
        (⟨[(1, 0), (0, 0)], ⟨[[Square.Destination, Square.Empty]]⟩⟩ : GameState).enemies
        (⟨[(0, 0), (0, 0)], ⟨[[Square.Destination, Square.Empty]]⟩⟩ : GameState).enemies) :=
  ⟨by decide, by decide,
    advance_preserves_invariant 5
      (⟨[(1, 0), (0, 0)], ⟨[[Square.Destination, Square.Empty]]⟩⟩ : GameState)
      (⟨[(0, 0), (0, 0)], ⟨[[Square.Destination, Square.Empty]]⟩⟩ : GameState)
      (by decide) (by decide)⟩

end TInv

namespace TInv

/-! ### Reachability: basic lemmas -/

lemma reachN_zero {m : Map} {a b : Pos} (h : ReachN m a b 0) : b = a := by
  cases h
  rfl

lemma reachN_one {m : Map} {a b : Pos} (hadj : Adj a b) (ht : m.trav b) :
    ReachN m a b 1 :=
  ReachN.step ReachN.refl hadj ht

lemma reachN_trans {m : Map} {a b c : Pos} {n k : Nat}
    (h1 : ReachN m a b n) (h2 : ReachN m b c k) : ReachN m a c (n + k) := by
  induction h2 with
  | refl => exact h1
  | step _ hadj htrav ih => exact ReachN.step ih hadj htrav

lemma reachN_succ_inv {m : Map} {a c : Pos} {n : Nat} (h : ReachN m a c (n + 1)) :
    ∃ b, ReachN m a b n ∧ Adj b c ∧ m.trav c := by
  cases h with
  | step hr hadj htrav => exact ⟨_, hr, hadj, htrav⟩

lemma reachN_trav {m : Map} {a b : Pos} {n : Nat} (h : ReachN m a b n) (hn : 1 ≤ n) :
    m.trav b := by
  cases h with
  | refl => omega
  | step _ _ htrav => exact htrav

lemma exists_min_of_reach {m : Map} {a b : Pos} (h : ∃ n, ReachN m a b n) :
    ∃ k, IsMinDist m a b k := by
  obtain ⟨n, hn⟩ := h
  induction n using Nat.strong_induction_on with
  | _ n ih =>
    by_cases h' : ∃ j, j < n ∧ ReachN m a b j
    · obtain ⟨j, hj, hr⟩ := h'
      exact ih j hj hr
    · push_neg at h'
      exact ⟨n, hn, fun j hj => le_of_not_lt (fun hlt => h' j hlt hj)⟩

lemma isMinDist_unique {m : Map} {a b : Pos} {k k' : Nat}
    (h : IsMinDist m a b k) (h' : IsMinDist m a b k') : k = k' :=
  le_antisymm (h.2 _ h'.1) (h'.2 _ h.1)

lemma isMinDist_self (m : Map) (a : Pos) : IsMinDist m a a 0 :=
  ⟨ReachN.refl, fun j _ => Nat.zero_le j⟩

lemma isMinDist_zero_of_self {m : Map} {s : Pos} {k : Nat} (h : IsMinDist m s s k) : k = 0 :=
  isMinDist_unique h (isMinDist_self m s)

lemma isMinDist_ne_start {m : Map} {s x : Pos} {k : Nat} (h : IsMinDist m s x k)
    (hx : x ≠ s) : 1 ≤ k := by
  rcases Nat.eq_zero_or_pos k with rfl | hk
  · exact absurd (reachN_zero h.1) hx
  · exact hk

lemma isMinDist_trav {m : Map} {s x : Pos} {k : Nat} (h : IsMinDist m s x k)
    (hk : 1 ≤ k) : m.trav x :=
  reachN_trav h.1 hk

lemma reachN_parity {m : Map} {a b : Pos} {n : Nat} (h : ReachN m a b n) :
    (a.1 + a.2 + n) % 2 = (b.1 + b.2) % 2 := by
  induction h with
  | refl => rfl
  | step _ hadj _ ih =>
    unfold Adj at hadj
    omega

lemma isMinDist_adj_ne {m : Map} {s a b : Pos} {ka kb : Nat} (hadj : Adj a b)
    (ha : IsMinDist m s a ka) (hb : IsMinDist m s b kb) : ka ≠ kb := by
  have pa := reachN_parity ha.1
  have pb := reachN_parity hb.1
  unfold Adj at hadj
  omega

lemma isMinDist_le_succ_of_adj {m : Map} {s a b : Pos} {ka kb : Nat}
    (hadj : Adj a b) (htb : m.trav b) (ha : IsMinDist m s a ka) (hb : IsMinDist m s b kb) :
    kb ≤ ka + 1 :=
  hb.2 _ (ReachN.step ha.1 hadj htb)

lemma isMinDist_pred {m : Map} {s x : Pos} {k : Nat} (h : IsMinDist m s x (k + 1)) :
    ∃ y, Adj y x ∧ IsMinDist m s y k ∧ m.trav x := by
  obtain ⟨hr, hmin⟩ := h
  obtain ⟨y, hry, hadj, htrav⟩ := reachN_succ_inv hr
  obtain ⟨k', hk'⟩ := exists_min_of_reach ⟨k, hry⟩
  have hle : k' ≤ k := hk'.2 _ hry
  have hge : k ≤ k' := by
    have := hmin _ (ReachN.step hk'.1 hadj htrav)
    omega
  have : k' = k := le_antisymm hle hge
  subst this
  exact ⟨y, hadj, hk', htrav⟩

end TInv

namespace TInv

/-! ### Predecessor map: well-formed bindings and the chain walk -/

/-- `x` is a key of the predecessor map. -/
def KeyMem (P : Parents) (x : Pos) : Prop := ∃ v, (x, v) ∈ P

lemma mem_plookup {P : Parents} {x : Pos} {v : Option Pos} (h : (x, v) ∈ P) :
    ∃ w, plookup P x = some w := by
  unfold plookup
  have : (P.find? (fun e => decide (e.1 = x))).isSome := by
    rw [List.find?_isSome]
    exact ⟨(x, v), h, by simp⟩
  cases hf : P.find? (fun e => decide (e.1 = x)) with
  | none => rw [hf] at this; cases this
  | some e => exact ⟨e.2, rfl⟩

lemma pcontains_false {P : Parents} {x : Pos} (h : pcontains P x = false) :
    ¬ KeyMem P x := by
  rintro ⟨v, hv⟩
  obtain ⟨w, hw⟩ := mem_plookup hv
  unfold pcontains at h
  rw [hw] at h
  cases h

lemma keyMem_cons {P : Parents} {x k : Pos} {v : Option Pos} (h : KeyMem P x) :
    KeyMem ((k, v) :: P) x := by
  obtain ⟨w, hw⟩ := h
  exact ⟨w, List.mem_cons_of_mem _ hw⟩

/-- Each binding of the predecessor map is the start bound to `None`, or
an in-path binding one hop closer to the start. -/
def bindingsWF (m : Map) (s : Pos) (P : Parents) : Prop :=
  ∀ x v, (x, v) ∈ P →
    (v = none ∧ x = s) ∨
    (∃ c, v = some c ∧ Adj c x ∧ m.trav x ∧ KeyMem P c ∧
      ∃ dx, 1 ≤ dx ∧ IsMinDist m s x dx ∧ IsMinDist m s c (dx - 1))

lemma first_move_spec {m : Map} {s : Pos} {P : Parents} (hwf : bindingsWF m s P) :
    ∀ dx x prev fuel, IsMinDist m s x dx → (x = s ∨ KeyMem P x) → dx + 1 ≤ fuel →
      (x = s ∧ first_move fuel P x prev = prev) ∨
      (x ≠ s ∧ 1 ≤ dx ∧ Adj s (first_move fuel P x prev) ∧
        m.trav (first_move fuel P x prev) ∧ IsMinDist m s (first_move fuel P x prev) 1 ∧
        ReachN m (first_move fuel P x prev) x (dx - 1)) := by
  intro dx
  induction dx using Nat.strong_induction_on with
  | _ dx ih =>
    intro x prev fuel hdx hx hfuel
    by_cases hxs : x = s
    · subst hxs
      left
      refine ⟨rfl, ?_⟩
      obtain ⟨f, rfl⟩ : ∃ f, fuel = f + 1 := ⟨fuel - 1, by omega⟩
      cases hl : plookup P x with
      | none =>
        unfold first_move
        rw [hl]
      | some w =>
        have hmem := plookup_mem hl
        rcases hwf _ _ hmem with ⟨rfl, _⟩ | ⟨c, rfl, _, _, _, dx', hdx1, hdmin, _⟩
        · unfold first_move
          rw [hl]
        · have h0 := isMinDist_zero_of_self hdmin
          omega
    · rcases hx with rfl | hx
      · exact absurd rfl hxs
      obtain ⟨v, hv⟩ := hx
      obtain ⟨w, hw⟩ := mem_plookup hv
      have hmem := plookup_mem hw
      rcases hwf _ _ hmem with ⟨rfl, rfl⟩ | ⟨c, rfl, hadj, htrav, hkc, dx', hdx1, hdmin, hcmin⟩
      · exact absurd rfl hxs
      have hdd : dx' = dx := isMinDist_unique hdmin hdx
      subst hdd
      obtain ⟨f, rfl⟩ : ∃ f, fuel = f + 1 := ⟨fuel - 1, by omega⟩
      have hred : first_move (f + 1) P x prev = first_move f P c x := by
        conv_lhs => unfold first_move
        rw [hw]
      rw [hred]
      have hfc : dx' - 1 + 1 ≤ f := by omega
      rcases ih (dx' - 1) (by omega) c x f hcmin (Or.inr hkc) hfc with ⟨rfl, hres⟩ | hres
      · rw [hres]
        right
        have h10 : dx' - 1 = 0 := isMinDist_zero_of_self hcmin
        refine ⟨hxs, hdx1, hadj, htrav, ?_, ?_⟩
        · have : dx' = 1 := by omega
          rwa [this] at hdmin
        · rw [h10]
          exact ReachN.refl
      · obtain ⟨hcs, hdge, hadjr, htravr, hminr, hreach⟩ := hres
        right
        refine ⟨hxs, hdx1, hadjr, htravr, hminr, ?_⟩
        have harr : dx' - 1 - 1 + 1 = dx' - 1 := by omega
        have := ReachN.step hreach hadj htrav
        rwa [harr] at this

end TInv

namespace TInv

/-! ### The BFS loop invariant -/

lemma plookup_head {P : Parents} {x : Pos} {v : Option Pos} :
    plookup ((x, v) :: P) x = some v := by
  unfold plookup
  rw [List.find?_cons_of_pos _ (by simp)]
  rfl

lemma pcontains_true {P : Parents} {x : Pos} (h : pcontains P x = true) : KeyMem P x := by
  unfold pcontains at h
  cases hl : plookup P x with
  | none => rw [hl] at h; cases h
  | some w => exact ⟨w, plookup_mem hl⟩

/-- A queue entry at BFS level `lvl`: the cell, its terrain, its exact
distance, and its recorded parent one level below, already a key. -/
def EntryOK (m : Map) (s : Pos) (P : Parents) (lvl : Nat) (e : Pos × Option Pos) : Prop :=
  match e.2 with
  | none => e.1 = s ∧ lvl = 0
  | some c => Adj c e.1 ∧ m.trav e.1 ∧ KeyMem P c ∧ 1 ≤ lvl ∧
      IsMinDist m s e.1 lvl ∧ IsMinDist m s c (lvl - 1)

lemma entryOK_mono {m : Map} {s : Pos} {P : Parents} {lvl : Nat}
    {e : Pos × Option Pos} {y : Pos} {w : Option Pos}
    (h : EntryOK m s P lvl e) : EntryOK m s ((y, w) :: P) lvl e := by
  obtain ⟨t, po⟩ := e
  cases po with
  | none => exact h
  | some c =>
    obtain ⟨h1, h2, h3, h4, h5, h6⟩ := h
    exact ⟨h1, h2, keyMem_cons h3, h4, h5, h6⟩

lemma entryOK_min {m : Map} {s : Pos} {P : Parents} {lvl : Nat}
    {cur : Pos} {parent : Option Pos}
    (h : EntryOK m s P lvl (cur, parent)) : IsMinDist m s cur lvl := by
  cases parent with
  | none =>
    have h' : cur = s ∧ lvl = 0 := h
    rw [h'.1, h'.2]
    exact isMinDist_self m s
  | some c => exact h.2.2.2.2.1

lemma bindingsWF_insert {m : Map} {s : Pos} {P : Parents} {lvl : Nat}
    {cur : Pos} {parent : Option Pos} (hwf : bindingsWF m s P)
    (hok : EntryOK m s P lvl (cur, parent)) : bindingsWF m s ((cur, parent) :: P) := by
  intro x v hmem
  rcases List.mem_cons.mp hmem with he | hmem'
  · rw [Prod.mk.injEq] at he
    obtain ⟨rfl, rfl⟩ := he
    cases v with
    | none =>
      have h' : x = s ∧ lvl = 0 := hok
      exact Or.inl ⟨rfl, h'.1⟩
    | some c =>
      have h' : Adj c x ∧ m.trav x ∧ KeyMem P c ∧ 1 ≤ lvl ∧
          IsMinDist m s x lvl ∧ IsMinDist m s c (lvl - 1) := hok
      obtain ⟨h1, h2, h3, h4, h5, h6⟩ := h'
      exact Or.inr ⟨c, rfl, h1, h2, keyMem_cons h3, lvl, h4, h5, h6⟩
  · rcases hwf _ _ hmem' with h | ⟨c, hv, h1, h2, h3, dx, h4, h5, h6⟩
    · exact Or.inl h
    · exact Or.inr ⟨c, hv, h1, h2, keyMem_cons h3, dx, h4, h5, h6⟩

/-- The invariant of `pf_loop`: `Q1` are the pending entries at level `d`,
`Q2` those at level `d + 1`; every level below `d` is fully inserted,
level `d` is inserted-or-pending, level `d + 1` is covered, keys are
non-destinations with level at most `d`. -/
structure LoopInv (m : Map) (s : Pos) (d : Nat) (P : Parents)
    (Q1 Q2 : List (Pos × Option Pos)) : Prop where
  hQ1 : ∀ e ∈ Q1, EntryOK m s P d e
  hQ2 : ∀ e ∈ Q2, EntryOK m s P (d + 1) e
  hwf : bindingsWF m s P
  hnodest : ∀ x v, (x, v) ∈ P → m.sq x ≠ Square.Destination
  hkeyle : ∀ x v k, (x, v) ∈ P → IsMinDist m s x k → k ≤ d
  hbelow : ∀ x k, IsMinDist m s x k → k < d → KeyMem P x
  hlevel : ∀ x, IsMinDist m s x d → KeyMem P x ∨ x ∈ Q1.map Prod.fst
  hnext : ∀ x, IsMinDist m s x (d + 1) → KeyMem P x ∨ x ∈ (Q1 ++ Q2).map Prod.fst ∨
      ∃ y, Adj y x ∧ IsMinDist m s y d ∧ y ∈ Q1.map Prod.fst
  hlen : d ≤ P.length

lemma loopInv_shift {m : Map} {s : Pos} {d : Nat} {P : Parents}
    {Q2 : List (Pos × Option Pos)} (inv : LoopInv m s d P [] Q2)
    (hl : d + 1 ≤ P.length) : LoopInv m s (d + 1) P Q2 [] := by
  refine ⟨inv.hQ2, ?_, inv.hwf, inv.hnodest, ?_, ?_, ?_, ?_, hl⟩
  · intro e he
    cases he
  · intro x v k hmem hk
    exact le_trans (inv.hkeyle x v k hmem hk) (Nat.le_succ d)
  · intro x k hk hlt
    rcases Nat.lt_or_ge k d with h | h
    · exact inv.hbelow x k hk h
    · have : k = d := by omega
      subst this
      rcases inv.hlevel x hk with h | h
      · exact h
      · cases h
  · intro x hx
    rcases inv.hnext x hx with h | h | ⟨y, _, _, hy⟩
    · exact Or.inl h
    · exact Or.inr (by simpa using h)
    · cases hy
  · intro x hx
    obtain ⟨y, hadj, hymin, htrav⟩ := isMinDist_pred hx
    rcases inv.hnext y hymin with h | h | ⟨z, _, _, hz⟩
    · obtain ⟨v, hv⟩ := h
      have := inv.hkeyle y v (d + 1) hv hymin
      omega
    · simp only [List.nil_append] at h
      exact Or.inr (Or.inr ⟨y, hadj, hymin, h⟩)
    · cases hz

end TInv

namespace TInv

lemma first_move_start {P : Parents} {s prev : Pos} (f : Nat) :
    first_move (f + 1) ((s, none) :: P) s prev = prev := by
  conv_lhs => unfold first_move
  rw [plookup_head]

/-- What `pf_search` returning `r` means: the start is already a
destination and `r` is the start, or `r` is the first hop of a
hop-count-minimal path to a nearest destination `t`, and `t` is again a
nearest destination of `r`, one hop closer. -/
def PfGood (m : Map) (s r : Pos) : Prop :=
  (m.sq s = Square.Destination ∧ r = s) ∨
  (∃ k t, NearestDest m s t (k + 1) ∧ Adj s r ∧ m.trav r ∧ IsMinDist m s r 1 ∧
    NearestDest m r t k)

lemma new_entry_ok {m : Map} {s : Pos} {d : Nat} {P : Parents} {cur t : Pos}
    {parent : Option Pos} (hcurd : IsMinDist m s cur d)
    (hbelow : ∀ x k, IsMinDist m s x k → k < d → KeyMem P x)
    (hadj : Adj cur t) (htrav : m.trav t)
    (hnk : ¬ KeyMem ((cur, parent) :: P) t) :
    EntryOK m s ((cur, parent) :: P) (d + 1) (t, some cur) := by
  have hreach : ReachN m s t (d + 1) := ReachN.step hcurd.1 hadj htrav
  obtain ⟨k, hk⟩ := exists_min_of_reach ⟨d + 1, hreach⟩
  have hkle : k ≤ d + 1 := hk.2 _ hreach
  have hkd : k ≠ d := fun he => isMinDist_adj_ne hadj hcurd hk he.symm
  have hknlt : ¬ k < d := fun hlt => hnk (keyMem_cons (hbelow t k hk hlt))
  have hkeq : k = d + 1 := by omega
  subst hkeq
  exact ⟨hadj, htrav, ⟨parent, List.mem_cons_self _ _⟩, Nat.succ_le_succ (Nat.zero_le d),
    hk, by simpa using hcurd⟩

lemma map_fst_entries (l : List Pos) (c : Pos) :
    (l.map (fun t => (t, some c))).map Prod.fst = l := by
  induction l with
  | nil => rfl
  | cons x l ih => simp only [List.map_cons, ih]

end TInv

namespace TInv

lemma loopInv_step {m : Map} {s : Pos} (hr : m.Rect) {d : Nat} {P : Parents}
    {Q1 Q2 : List (Pos × Option Pos)} {cur : Pos} {parent : Option Pos}
    (inv : LoopInv m s d P ((cur, parent) :: Q1) Q2)
    (hd : m.sq cur ≠ Square.Destination) :
    LoopInv m s d (pinsert P cur parent) Q1
    (Q2 ++ ((m.neighbors_4 cur).filter (fun t =>
      (decide (m.sq t = Square.Empty) || decide (m.sq t = Square.Destination))
        && !pcontains (pinsert P cur parent) t)).map (fun t => (t, some cur))) := by
  have hhead : EntryOK m s P d (cur, parent) := inv.hQ1 _ (List.mem_cons_self _ _)
  have hcurd : IsMinDist m s cur d := entryOK_min hhead
  refine ⟨?_, ?_, ?_, ?_, ?_, ?_, ?_, ?_, ?_⟩
  · intro e he
    exact entryOK_mono (inv.hQ1 _ (List.mem_cons_of_mem _ he))
  · intro e he
    rcases List.mem_append.mp he with he | he
    · exact entryOK_mono (inv.hQ2 _ he)
    · simp only [List.mem_map] at he
      obtain ⟨t, ht, rfl⟩ := he
      have hmemf := List.mem_filter.mp ht
      obtain ⟨hadj, hnb⟩ := mem_neighbors_4_iff.mp hmemf.1
      have hpred := hmemf.2
      simp only [Bool.and_eq_true, Bool.or_eq_true, decide_eq_true_eq,
        Bool.not_eq_true'] at hpred
      have htrav : m.trav t := hpred.1
      have hnk : ¬ KeyMem ((cur, parent) :: P) t := pcontains_false hpred.2
      exact new_entry_ok hcurd inv.hbelow hadj htrav hnk
  · exact bindingsWF_insert inv.hwf hhead
  · intro x v hmem
    rcases List.mem_cons.mp hmem with he | hmem'
    · rw [Prod.mk.injEq] at he
      rw [he.1]
      exact hd
    · exact inv.hnodest _ _ hmem'
  · intro x v k hmem hk
    rcases List.mem_cons.mp hmem with he | hmem'
    · rw [Prod.mk.injEq] at he
      rw [he.1] at hk
      rw [isMinDist_unique hk hcurd]
    · exact inv.hkeyle _ _ _ hmem' hk
  · intro x k hk hlt
    exact keyMem_cons (inv.hbelow x k hk hlt)
  · intro x hx
    rcases inv.hlevel x hx with h | h
    · exact Or.inl (keyMem_cons h)
    · simp only [List.map_cons, List.mem_cons] at h
      rcases h with rfl | h
      · exact Or.inl ⟨parent, List.mem_cons_self _ _⟩
      · exact Or.inr h
  · intro x hx
    rcases inv.hnext x hx with h | h | ⟨y, hadjy, hymin, hy⟩
    · exact Or.inl (keyMem_cons h)
    · simp only [List.cons_append, List.map_cons, List.mem_cons] at h
      rcases h with rfl | h
      · have := isMinDist_unique hx hcurd
        omega
      · refine Or.inr (Or.inl ?_)
        rw [List.map_append] at h ⊢
        rcases List.mem_append.mp h with h | h
        · exact List.mem_append.mpr (Or.inl h)
        · refine List.mem_append.mpr (Or.inr ?_)
          rw [List.map_append]
          exact List.mem_append.mpr (Or.inl h)
    · simp only [List.map_cons, List.mem_cons] at hy
      rcases hy with he | hy
      · -- y = cur: x is adjacent to the expanded cell
        have he2 : cur = y := he.symm
        subst he2
        by_cases hkx : KeyMem (pinsert P cur parent) x
        · exact Or.inl hkx
        · refine Or.inr (Or.inl ?_)
          have htravx : m.trav x := isMinDist_trav hx (by omega)
          have hnbx : m.nat_in_bounds x := trav_in_bounds hr htravx
          have hmemn : x ∈ m.neighbors_4 cur := mem_neighbors_4_iff.mpr ⟨hadjy, hnbx⟩
          have hpc : pcontains (pinsert P cur parent) x = false := by
            cases hpc : pcontains (pinsert P cur parent) x with
            | false => rfl
            | true => exact absurd (pcontains_true hpc) hkx
          have hmemf : x ∈ (m.neighbors_4 cur).filter (fun t =>
              (decide (m.sq t = Square.Empty) || decide (m.sq t = Square.Destination))
                && !pcontains (pinsert P cur parent) t) := by
            rw [List.mem_filter]
            refine ⟨hmemn, ?_⟩
            rw [hpc]
            rcases htravx with h | h <;> simp [h]
          rw [List.map_append, List.map_append, map_fst_entries]
          exact List.mem_append.mpr (Or.inr (List.mem_append.mpr (Or.inr hmemf)))
      · exact Or.inr (Or.inr ⟨y, hadjy, hymin, hy⟩)
  · simp only [pinsert, List.length_cons]
    have := inv.hlen
    omega

lemma pf_loop_sound {m : Map} {s : Pos} (hr : m.Rect) :
    ∀ (fuel d : Nat) (P : Parents) (Q1 Q2 : List (Pos × Option Pos))
      (cur : Pos) (parent : Option Pos) (r : Pos),
      LoopInv m s d P ((cur, parent) :: Q1) Q2 →
      pf_loop m fuel P (Q1 ++ Q2) cur parent = .ok r →
      PfGood m s r := by
  intro fuel
  induction fuel with
  | zero =>
    intro d P Q1 Q2 cur parent r _ hres
    cases hres
  | succ fuel ih =>
    intro d P Q1 Q2 cur parent r inv hres
    have hhead : EntryOK m s P d (cur, parent) := inv.hQ1 _ (List.mem_cons_self _ _)
    have hcurd : IsMinDist m s cur d := entryOK_min hhead
    unfold pf_loop at hres
    by_cases hd : m.sq cur = Square.Destination
    · -- exit: cur is a destination
      rw [if_pos hd] at hres
      injection hres with hres'
      subst hres'
      cases parent with
      | none =>
        have h0 : cur = s ∧ d = 0 := hhead
        rw [h0.1] at hd ⊢
        exact Or.inl ⟨hd, first_move_start ((pinsert P s none).length)⟩
      | some c =>
        have h' : Adj c cur ∧ m.trav cur ∧ KeyMem P c ∧ 1 ≤ d ∧
            IsMinDist m s cur d ∧ IsMinDist m s c (d - 1) := hhead
        obtain ⟨hadjc, htravc, hkc, hd1, _, hcmin⟩ := h'
        have hwf' : bindingsWF m s ((cur, some c) :: P) := bindingsWF_insert inv.hwf hhead
        have hfw : d + 1 ≤ ((cur, some c) :: P).length + 1 := by
          have := inv.hlen
          simp only [List.length_cons]
          omega
        have hwalk := first_move_spec hwf' d cur cur (((cur, some c) :: P).length + 1) hcurd
          (Or.inr ⟨some c, List.mem_cons_self _ _⟩) hfw
        rcases hwalk with ⟨heq, _⟩ | ⟨hcs, _, hadjr, htravr, hminr, hreachr⟩
        · rw [heq] at hcurd
          have := isMinDist_zero_of_self hcurd
          omega
        · right
          refine ⟨d - 1, cur, ?_, hadjr, htravr, hminr, ?_⟩
          · have hde : d - 1 + 1 = d := by omega
            rw [hde]
            refine ⟨hd, hcurd, ?_⟩
            intro t' k' ht' hk'
            by_contra hlt
            push_neg at hlt
            obtain ⟨v', hv'⟩ := inv.hbelow t' k' hk' (by omega)
            exact inv.hnodest t' v' hv' ht'
          · refine ⟨hd, ⟨hreachr, ?_⟩, ?_⟩
            · intro j hj
              by_contra hlt
              push_neg at hlt
              have hcomp : ReachN m s cur (1 + j) :=
                reachN_trans (reachN_one hadjr htravr) hj
              have := hcurd.2 _ hcomp
              omega
            · intro t' k' ht' hk'
              by_contra hlt
              push_neg at hlt
              have hcomp : ReachN m s t' (1 + k') :=
                reachN_trans (reachN_one hadjr htravr) hk'.1
              obtain ⟨k'', hk''⟩ := exists_min_of_reach ⟨1 + k', hcomp⟩
              have hle : k'' ≤ 1 + k' := hk''.2 _ hcomp
              obtain ⟨v', hv'⟩ := inv.hbelow t' k'' hk'' (by omega)
              exact inv.hnodest t' v' hv' ht'
    · -- step: expand cur
      rw [if_neg hd] at hres
      have hinv' := loopInv_step hr inv hd
      -- now case on the new queue
      cases hq' : (Q1 ++ Q2) ++ ((m.neighbors_4 cur).filter (fun t =>
          (decide (m.sq t = Square.Empty) || decide (m.sq t = Square.Destination))
            && !pcontains (pinsert P cur parent) t)).map (fun t => (t, some cur)) with
      | nil =>
        rw [hq'] at hres
        cases hres
      | cons e q'' =>
        rw [hq'] at hres
        have hres2 : pf_loop m fuel (pinsert P cur parent) q'' e.1 e.2 = .ok r := hres
        cases Q1 with
        | cons e1 Q1rest =>
          have heq : e1 = e ∧ (Q1rest ++ Q2) ++ ((m.neighbors_4 cur).filter (fun t =>
              (decide (m.sq t = Square.Empty) || decide (m.sq t = Square.Destination))
                && !pcontains (pinsert P cur parent) t)).map (fun t => (t, some cur)) = q'' := by
            rw [List.cons_append, List.cons_append] at hq'
            exact ⟨(List.cons.injEq _ _ _ _).mp hq' |>.1, (List.cons.injEq _ _ _ _).mp hq' |>.2⟩
          obtain ⟨rfl, hq''⟩ := heq
          refine ih d (pinsert P cur parent) Q1rest (Q2 ++ ((m.neighbors_4 cur).filter (fun t =>
              (decide (m.sq t = Square.Empty) || decide (m.sq t = Square.Destination))
                && !pcontains (pinsert P cur parent) t)).map (fun t => (t, some cur)))
            e1.1 e1.2 r ?_ ?_
          · exact hinv'
          · rw [← List.append_assoc, hq'']
            exact hres2
        | nil =>
          have hq2n : Q2 ++ ((m.neighbors_4 cur).filter (fun t =>
              (decide (m.sq t = Square.Empty) || decide (m.sq t = Square.Destination))
                && !pcontains (pinsert P cur parent) t)).map (fun t => (t, some cur)) =
              e :: q'' := by
            rw [List.nil_append] at hq'
            exact hq'
          have hlen' : d + 1 ≤ (pinsert P cur parent).length := by
            simp only [pinsert, List.length_cons]
            have := inv.hlen
            omega
          have hinv'' := loopInv_shift hinv' hlen'
          rw [hq2n] at hinv''
          refine ih (d + 1) (pinsert P cur parent) q'' [] e.1 e.2 r hinv'' ?_
          rw [List.append_nil]
          exact hres2

end TInv

namespace TInv

lemma loopInv_init (m : Map) (s : Pos) : LoopInv m s 0 [] [(s, none)] [] := by
  refine ⟨?_, ?_, ?_, ?_, ?_, ?_, ?_, ?_, ?_⟩
  · intro e he
    rcases List.mem_cons.mp he with rfl | he
    · exact ⟨rfl, rfl⟩
    · cases he
  · intro e he
    cases he
  · intro x v h
    cases h
  · intro x v h
    cases h
  · intro x v k h
    cases h
  · intro x k _ h
    omega
  · intro x hx
    have : x = s := reachN_zero hx.1
    subst this
    exact Or.inr (by simp)
  · intro x hx
    obtain ⟨y, hadj, hymin, _⟩ := isMinDist_pred hx
    have hys : y = s := reachN_zero hymin.1
    subst hys
    exact Or.inr (Or.inr ⟨y, hadj, hymin, by simp⟩)
  · exact Nat.le_refl 0

lemma pf_search_correct {m : Map} {s : Pos} (hr : m.Rect) {fuel : Nat} {r : Pos}
    (h : pf_search fuel m s = .ok r) : PfGood m s r :=
  pf_loop_sound hr fuel 0 [] [] [] s none r (loopInv_init m s) h

lemma pf_iter_succ_head (fuel : Nat) (m : Map) (s : Pos) (n : Nat) :
    pf_iter fuel m s (n + 1) = (pf_search fuel m s).bind (fun p => pf_iter fuel m p n) := by
  induction n with
  | zero =>
    have hl : pf_iter fuel m s 1 = pf_search fuel m s := rfl
    have hrhs : ∀ x : Except PfError Pos, x.bind (fun p => pf_iter fuel m p 0) = x := by
      intro x
      cases x <;> rfl
    rw [hl, hrhs]
  | succ n ihn =>
    show (pf_iter fuel m s (n + 1)).bind (fun p => pf_search fuel m p) = _
    rw [ihn]
    cases h : pf_search fuel m s with
    | error e => rfl
    | ok p => rfl

lemma pf_iter_correct {m : Map} (hr : m.Rect) :
    ∀ (k : Nat) (s t : Pos), NearestDest m s t k →
      ∀ fuel, (∀ p, pf_iter fuel m s k = .ok p → m.sq p = Square.Destination) ∧
        (∀ j p, 1 ≤ j → j ≤ k → pf_iter fuel m s j = .ok p → m.trav p) := by
  intro k
  induction k with
  | zero =>
    intro s t hnd fuel
    constructor
    · intro p hp
      have hts : t = s := reachN_zero hnd.2.1.1
      injection hp with hp'
      rw [← hp', ← hts]
      exact hnd.1
    · intro j p h1 h2
      omega
  | succ k ihk =>
    intro s t hnd fuel
    have hsnd : m.sq s ≠ Square.Destination := by
      intro hsd
      have := hnd.2.2 s 0 hsd (isMinDist_self m s)
      omega
    have hstep : ∀ p', pf_search fuel m s = .ok p' →
        ∃ t', NearestDest m p' t' k ∧ m.trav p' := by
      intro p' hp'
      rcases pf_search_correct hr hp' with ⟨hsd, _⟩ | ⟨k0, t0, hnd0, hadj, htrav, hmin1, hndr⟩
      · exact absurd hsd hsnd
      · have hk0 : k0 = k := by
          have h1 := hnd.2.2 t0 (k0 + 1) hnd0.1 hnd0.2.1
          have h2 := hnd0.2.2 t (k + 1) hnd.1 hnd.2.1
          omega
        subst hk0
        exact ⟨t0, hndr, htrav⟩
    constructor
    · intro p hp
      rw [pf_iter_succ_head] at hp
      cases hps : pf_search fuel m s with
      | error e => rw [hps] at hp; cases hp
      | ok p' =>
        rw [hps] at hp
        have hp2 : pf_iter fuel m p' k = .ok p := hp
        obtain ⟨t', hnd', _⟩ := hstep p' hps
        exact (ihk p' t' hnd' fuel).1 p hp2
    · intro j p h1 h2 hp
      obtain ⟨j', rfl⟩ : ∃ j', j = j' + 1 := ⟨j - 1, by omega⟩
      rw [pf_iter_succ_head] at hp
      cases hps : pf_search fuel m s with
      | error e => rw [hps] at hp; cases hp
      | ok p' =>
        rw [hps] at hp
        have hp2 : pf_iter fuel m p' j' = .ok p := hp
        obtain ⟨t', hnd', htravp'⟩ := hstep p' hps
        rcases Nat.eq_zero_or_pos j' with rfl | hj'
        · injection hp2 with hpe
          rw [← hpe]
          exact htravp'
        · exact (ihk p' t' hnd' fuel).2 j' p hj' (by omega) hp2

end TInv

namespace TInv

lemma exists_at_dist {m : Map} {s x : Pos} {n : Nat} (h : IsMinDist m s x n) :
    ∀ j, j ≤ n → ∃ y, IsMinDist m s y j := by
  induction n generalizing x with
  | zero =>
    intro j hj
    have : j = 0 := by omega
    subst this
    exact ⟨x, h⟩
  | succ n ihn =>
    intro j hj
    rcases Nat.eq_or_lt_of_le hj with rfl | hlt
    · exact ⟨x, h⟩
    · obtain ⟨y, _, hy, _⟩ := isMinDist_pred h
      exact ihn hy j (by omega)

/-- Hop-count distances are below the number of grid cells: the cells at
distances `0, 1, …, n` are pairwise distinct in-bounds cells. -/
lemma dist_bound {m : Map} {s x : Pos} {n : Nat} (hr : m.Rect)
    (hs : m.nat_in_bounds s) (h : IsMinDist m s x n) : n + 1 ≤ m.ncols * m.nrows := by
  classical
  have hcell : ∀ j : Nat, j ≤ n → ∃ y, IsMinDist m s y j ∧ m.nat_in_bounds y := by
    intro j hj
    obtain ⟨y, hy⟩ := exists_at_dist h j hj
    rcases Nat.eq_zero_or_pos j with rfl | hjpos
    · have : y = s := reachN_zero hy.1
      subst this
      exact ⟨y, hy, hs⟩
    · exact ⟨y, hy, trav_in_bounds hr (isMinDist_trav hy hjpos)⟩
  choose g hg1 hg2 using fun (j : Fin (n + 1)) => hcell j.1 (by omega)
  have hinj : Function.Injective g := by
    intro a b hab
    have h1 := hg1 a
    have h2 := hg1 b
    rw [hab] at h1
    have := isMinDist_unique h1 h2
    exact Fin.ext this
  have hmaps : ∀ a : Fin (n + 1), g a ∈ Finset.range m.ncols ×ˢ Finset.range m.nrows := by
    intro a
    have := hg2 a
    simp only [Finset.mem_product, Finset.mem_range]
    exact ⟨this.1, this.2⟩
  have hmaps' : ∀ a ∈ (Finset.univ : Finset (Fin (n + 1))),
      g a ∈ Finset.range m.ncols ×ˢ Finset.range m.nrows := fun a _ => hmaps a
  have hcard := Finset.card_le_card_of_injOn g hmaps' (Function.Injective.injOn hinj)
  simpa [Finset.card_univ] using hcard

lemma loopInv_empty_no_dest {m : Map} {s : Pos} {d : Nat} {P : Parents}
    (inv : LoopInv m s d P [] []) :
    ∀ t k, m.sq t = Square.Destination → IsMinDist m s t k → False := by
  have habove : ∀ j x, ¬ IsMinDist m s x (d + 1 + j) := by
    intro j
    induction j with
    | zero =>
      intro x hx
      have hx0 : IsMinDist m s x (d + 1) := by simpa using hx
      rcases inv.hnext x hx0 with h | h | ⟨y, _, _, hy⟩
      · obtain ⟨v, hv⟩ := h
        have := inv.hkeyle _ _ _ hv hx0
        omega
      · simp at h
      · simp at hy
    | succ j ihj =>
      intro x hx
      have hx' : IsMinDist m s x ((d + 1 + j) + 1) := by
        have he : d + 1 + (j + 1) = (d + 1 + j) + 1 := by omega
        rwa [he] at hx
      obtain ⟨y, _, hy, _⟩ := isMinDist_pred hx'
      exact ihj y hy
  intro t k ht hk
  rcases Nat.lt_or_ge k d with h | h
  · obtain ⟨v, hv⟩ := inv.hbelow t k hk h
    exact inv.hnodest t v hv ht
  · rcases Nat.eq_or_lt_of_le h with he | hlt
    · rw [← he] at hk
      rcases inv.hlevel t hk with hm | hm
      · obtain ⟨v, hv⟩ := hm
        exact inv.hnodest t v hv ht
      · simp at hm
    · have he : k = d + 1 + (k - d - 1) := by omega
      rw [he] at hk
      exact habove _ t hk

lemma pf_loop_exhaust {m : Map} {s : Pos} (hr : m.Rect) :
    ∀ (fuel d : Nat) (P : Parents) (Q1 Q2 : List (Pos × Option Pos))
      (cur : Pos) (parent : Option Pos),
      LoopInv m s d P ((cur, parent) :: Q1) Q2 →
      pf_loop m fuel P (Q1 ++ Q2) cur parent = .error .NoReachableDestination →
      ∀ t k, m.sq t = Square.Destination → IsMinDist m s t k → False := by
  intro fuel
  induction fuel with
  | zero =>
    intro d P Q1 Q2 cur parent _ hres
    injection hres with h
    exact PfError.noConfusion h
  | succ fuel ih =>
    intro d P Q1 Q2 cur parent inv hres
    unfold pf_loop at hres
    by_cases hd : m.sq cur = Square.Destination
    · rw [if_pos hd] at hres
      cases hres
    · rw [if_neg hd] at hres
      have hinv' := loopInv_step hr inv hd
      cases hq' : (Q1 ++ Q2) ++ ((m.neighbors_4 cur).filter (fun t =>
          (decide (m.sq t = Square.Empty) || decide (m.sq t = Square.Destination))
            && !pcontains (pinsert P cur parent) t)).map (fun t => (t, some cur)) with
      | nil =>
        obtain ⟨h12, hN⟩ := List.append_eq_nil.mp hq'
        obtain ⟨h1, h2⟩ := List.append_eq_nil.mp h12
        rw [h1, h2, hN] at hinv'
        rw [List.append_nil] at hinv'
        exact loopInv_empty_no_dest hinv'
      | cons e q'' =>
        rw [hq'] at hres
        have hres2 : pf_loop m fuel (pinsert P cur parent) q'' e.1 e.2 =
            .error .NoReachableDestination := hres
        cases Q1 with
        | cons e1 Q1rest =>
          have heq : e1 = e ∧ (Q1rest ++ Q2) ++ ((m.neighbors_4 cur).filter (fun t =>
              (decide (m.sq t = Square.Empty) || decide (m.sq t = Square.Destination))
                && !pcontains (pinsert P cur parent) t)).map (fun t => (t, some cur)) = q'' := by
            rw [List.cons_append, List.cons_append] at hq'
            exact ⟨(List.cons.injEq _ _ _ _).mp hq' |>.1, (List.cons.injEq _ _ _ _).mp hq' |>.2⟩
          obtain ⟨rfl, hq''⟩ := heq
          refine ih d (pinsert P cur parent) Q1rest (Q2 ++ ((m.neighbors_4 cur).filter (fun t =>
              (decide (m.sq t = Square.Empty) || decide (m.sq t = Square.Destination))
                && !pcontains (pinsert P cur parent) t)).map (fun t => (t, some cur)))
            e1.1 e1.2 ?_ ?_
          · exact hinv'
          · rw [← List.append_assoc, hq'']
            exact hres2
        | nil =>
          have hq2n : Q2 ++ ((m.neighbors_4 cur).filter (fun t =>
              (decide (m.sq t = Square.Empty) || decide (m.sq t = Square.Destination))
                && !pcontains (pinsert P cur parent) t)).map (fun t => (t, some cur)) =
              e :: q'' := by
            rw [List.nil_append] at hq'
            exact hq'
          have hlen' : d + 1 ≤ (pinsert P cur parent).length := by
            simp only [pinsert, List.length_cons]
            have := inv.hlen
            omega
          have hinv'' := loopInv_shift hinv' hlen'
          rw [hq2n] at hinv''
          refine ih (d + 1) (pinsert P cur parent) q'' [] e.1 e.2 hinv'' ?_
          rw [List.append_nil]
          exact hres2

lemma neighbors_4_length_le (m : Map) (x : Pos) : (m.neighbors_4 x).length ≤ 4 := by
  unfold Map.neighbors_4 Map.neighbors_offsets
  rw [List.length_map]
  exact le_trans (List.length_filter_le _ _) (by rw [List.length_map]; rfl)

lemma new_entries_length_le (m : Map) (cur : Pos) (P : Parents) (parent : Option Pos) :
    (((m.neighbors_4 cur).filter (fun t =>
      (decide (m.sq t = Square.Empty) || decide (m.sq t = Square.Destination))
        && !pcontains (pinsert P cur parent) t)).map (fun t => (t, some cur))).length ≤ 4 := by
  rw [List.length_map]
  exact le_trans (List.length_filter_le _ _) (neighbors_4_length_le m cur)

lemma pf_loop_no_fuel_error {m : Map} {s : Pos} (hr : m.Rect) (hs : m.nat_in_bounds s) :
    ∀ (fuel d : Nat) (P : Parents) (Q1 Q2 : List (Pos × Option Pos))
      (cur : Pos) (parent : Option Pos),
      LoopInv m s d P ((cur, parent) :: Q1) Q2 →
      (Q1.length + 1) * 5 ^ (m.ncols * m.nrows - d) +
        Q2.length * 5 ^ (m.ncols * m.nrows - (d + 1)) < fuel →
      pf_loop m fuel P (Q1 ++ Q2) cur parent ≠ .error .OutOfFuel := by
  intro fuel
  induction fuel with
  | zero =>
    intro d P Q1 Q2 cur parent _ hphi
    exact absurd hphi (Nat.not_lt_zero _)
  | succ fuel ih =>
    intro d P Q1 Q2 cur parent inv hphi
    have hhead : EntryOK m s P d (cur, parent) := inv.hQ1 _ (List.mem_cons_self _ _)
    have hcurd : IsMinDist m s cur d := entryOK_min hhead
    have hdB : d + 1 ≤ m.ncols * m.nrows := dist_bound hr hs hcurd
    have hpow : 5 ^ (m.ncols * m.nrows - d) =
        5 * 5 ^ (m.ncols * m.nrows - (d + 1)) := by
      have he : m.ncols * m.nrows - d = (m.ncols * m.nrows - (d + 1)) + 1 := by omega
      rw [he, pow_succ]
      ring
    have hp1 : 1 ≤ 5 ^ (m.ncols * m.nrows - (d + 1)) := Nat.one_le_pow _ _ (by norm_num)
    unfold pf_loop
    by_cases hd : m.sq cur = Square.Destination
    · rw [if_pos hd]
      intro hcontra
      cases hcontra
    · rw [if_neg hd]
      have hinv' := loopInv_step hr inv hd
      cases hq' : (Q1 ++ Q2) ++ ((m.neighbors_4 cur).filter (fun t =>
          (decide (m.sq t = Square.Empty) || decide (m.sq t = Square.Destination))
            && !pcontains (pinsert P cur parent) t)).map (fun t => (t, some cur)) with
      | nil =>
        intro hcontra
        injection hcontra with h
        exact PfError.noConfusion h
      | cons e q'' =>
        show pf_loop m fuel (pinsert P cur parent) q'' e.1 e.2 ≠ .error .OutOfFuel
        have hN4 := new_entries_length_le m cur P parent
        cases Q1 with
        | cons e1 Q1rest =>
          have heq : e1 = e ∧ (Q1rest ++ Q2) ++ ((m.neighbors_4 cur).filter (fun t =>
              (decide (m.sq t = Square.Empty) || decide (m.sq t = Square.Destination))
                && !pcontains (pinsert P cur parent) t)).map (fun t => (t, some cur)) = q'' := by
            rw [List.cons_append, List.cons_append] at hq'
            exact ⟨(List.cons.injEq _ _ _ _).mp hq' |>.1, (List.cons.injEq _ _ _ _).mp hq' |>.2⟩
          obtain ⟨rfl, hq''⟩ := heq
          have hrec := ih d (pinsert P cur parent) Q1rest
            (Q2 ++ ((m.neighbors_4 cur).filter (fun t =>
              (decide (m.sq t = Square.Empty) || decide (m.sq t = Square.Destination))
                && !pcontains (pinsert P cur parent) t)).map (fun t => (t, some cur)))
            e1.1 e1.2 hinv' ?_
          · rw [← List.append_assoc, hq''] at hrec
            exact hrec
          · simp only [List.length_cons, List.length_append] at hphi ⊢
            rw [hpow] at hphi ⊢
            have hee1 : (Q1rest.length + 1 + 1) *
                (5 * 5 ^ (m.ncols * m.nrows - (d + 1))) +
                Q2.length * 5 ^ (m.ncols * m.nrows - (d + 1)) =
                Q1rest.length * (5 * 5 ^ (m.ncols * m.nrows - (d + 1))) +
                10 * 5 ^ (m.ncols * m.nrows - (d + 1)) +
                Q2.length * 5 ^ (m.ncols * m.nrows - (d + 1)) := by ring
            have hee2 : (Q1rest.length + 1) *
                (5 * 5 ^ (m.ncols * m.nrows - (d + 1))) +
                (Q2.length + (((m.neighbors_4 cur).filter (fun t =>
                  (decide (m.sq t = Square.Empty) || decide (m.sq t = Square.Destination))
                    && !pcontains (pinsert P cur parent) t)).map
                      (fun t => (t, some cur))).length) *
                  5 ^ (m.ncols * m.nrows - (d + 1)) =
                Q1rest.length * (5 * 5 ^ (m.ncols * m.nrows - (d + 1))) +
                5 * 5 ^ (m.ncols * m.nrows - (d + 1)) +
                Q2.length * 5 ^ (m.ncols * m.nrows - (d + 1)) +
                (((m.neighbors_4 cur).filter (fun t =>
                  (decide (m.sq t = Square.Empty) || decide (m.sq t = Square.Destination))
                    && !pcontains (pinsert P cur parent) t)).map
                      (fun t => (t, some cur))).length *
                  5 ^ (m.ncols * m.nrows - (d + 1)) := by ring
            rw [hee1] at hphi
            rw [hee2]
            have hzb : (((m.neighbors_4 cur).filter (fun t =>
                (decide (m.sq t = Square.Empty) || decide (m.sq t = Square.Destination))
                  && !pcontains (pinsert P cur parent) t)).map
                    (fun t => (t, some cur))).length *
                  5 ^ (m.ncols * m.nrows - (d + 1)) ≤
                4 * 5 ^ (m.ncols * m.nrows - (d + 1)) :=
              Nat.mul_le_mul_right _ hN4
            generalize Q1rest.length * (5 * 5 ^ (m.ncols * m.nrows - (d + 1))) = X at hphi ⊢
            generalize Q2.length * 5 ^ (m.ncols * m.nrows - (d + 1)) = Y at hphi ⊢
            generalize hZ : (((m.neighbors_4 cur).filter (fun t =>
                (decide (m.sq t = Square.Empty) || decide (m.sq t = Square.Destination))
                  && !pcontains (pinsert P cur parent) t)).map
                    (fun t => (t, some cur))).length *
                  5 ^ (m.ncols * m.nrows - (d + 1)) = Z at hzb ⊢
            generalize 5 ^ (m.ncols * m.nrows - (d + 1)) = p at hp1 hphi hzb ⊢
            omega
        | nil =>
          have hq2n : Q2 ++ ((m.neighbors_4 cur).filter (fun t =>
              (decide (m.sq t = Square.Empty) || decide (m.sq t = Square.Destination))
                && !pcontains (pinsert P cur parent) t)).map (fun t => (t, some cur)) =
              e :: q'' := by
            rw [List.nil_append] at hq'
            exact hq'
          have hlen' : d + 1 ≤ (pinsert P cur parent).length := by
            simp only [pinsert, List.length_cons]
            have := inv.hlen
            omega
          have hinv'' := loopInv_shift hinv' hlen'
          rw [hq2n] at hinv''
          have hlq : Q2.length + (((m.neighbors_4 cur).filter (fun t =>
              (decide (m.sq t = Square.Empty) || decide (m.sq t = Square.Destination))
                && !pcontains (pinsert P cur parent) t)).map (fun t => (t, some cur))).length =
              q''.length + 1 := by
            have := congrArg List.length hq2n
            simpa using this
          have hrec := ih (d + 1) (pinsert P cur parent) q'' [] e.1 e.2 hinv'' ?_
          · rwa [List.append_nil] at hrec
          · simp only [List.length_nil, List.length_cons, Nat.zero_mul, Nat.add_zero] at hphi ⊢
            rw [hpow] at hphi
            have hee1 : (0 + 1) * (5 * 5 ^ (m.ncols * m.nrows - (d + 1))) +
                Q2.length * 5 ^ (m.ncols * m.nrows - (d + 1)) =
                5 * 5 ^ (m.ncols * m.nrows - (d + 1)) +
                Q2.length * 5 ^ (m.ncols * m.nrows - (d + 1)) := by ring
            rw [hee1] at hphi
            have hee2 : (q''.length + 1) * 5 ^ (m.ncols * m.nrows - (d + 1)) =
                Q2.length * 5 ^ (m.ncols * m.nrows - (d + 1)) +
                (((m.neighbors_4 cur).filter (fun t =>
                  (decide (m.sq t = Square.Empty) || decide (m.sq t = Square.Destination))
                    && !pcontains (pinsert P cur parent) t)).map
                      (fun t => (t, some cur))).length *
                  5 ^ (m.ncols * m.nrows - (d + 1)) := by
              rw [← Nat.add_mul, hlq]
            rw [hee2]
            have hzb : (((m.neighbors_4 cur).filter (fun t =>
                (decide (m.sq t = Square.Empty) || decide (m.sq t = Square.Destination))
                  && !pcontains (pinsert P cur parent) t)).map
                    (fun t => (t, some cur))).length *
                  5 ^ (m.ncols * m.nrows - (d + 1)) ≤
                4 * 5 ^ (m.ncols * m.nrows - (d + 1)) :=
              Nat.mul_le_mul_right _ hN4
            generalize Q2.length * 5 ^ (m.ncols * m.nrows - (d + 1)) = Y at hphi ⊢
            generalize hZ : (((m.neighbors_4 cur).filter (fun t =>
                (decide (m.sq t = Square.Empty) || decide (m.sq t = Square.Destination))
                  && !pcontains (pinsert P cur parent) t)).map
                    (fun t => (t, some cur))).length *
                  5 ^ (m.ncols * m.nrows - (d + 1)) = Z at hzb ⊢
            generalize 5 ^ (m.ncols * m.nrows - (d + 1)) = p at hp1 hphi hzb ⊢
            omega

lemma pf_search_no_fuel_err {m : Map} {s : Pos} (hr : m.Rect) (hs : m.nat_in_bounds s)
    {fuel : Nat} (hf : 5 ^ (m.ncols * m.nrows) < fuel) :
    pf_search fuel m s ≠ .error .OutOfFuel := by
  have h := pf_loop_no_fuel_error hr hs fuel 0 [] [] [] s none (loopInv_init m s)
    (by simpa using hf)
  exact h

lemma pf_search_completes {m : Map} {s t : Pos} {k : Nat} (hr : m.Rect)
    (hs : m.nat_in_bounds s) (ht : m.sq t = Square.Destination) (hk : IsMinDist m s t k)
    {fuel : Nat} (hf : 5 ^ (m.ncols * m.nrows) < fuel) :
    ∃ r, pf_search fuel m s = .ok r := by
  cases hres : pf_search fuel m s with
  | ok r => exact ⟨r, rfl⟩
  | error e =>
    cases e with
    | NoReachableDestination =>
      exact (pf_loop_exhaust hr fuel 0 [] [] [] s none (loopInv_init m s) hres t k ht hk).elim
    | OutOfFuel => exact absurd hres (pf_search_no_fuel_err hr hs hf)

lemma pf_iter_completes {m : Map} (hr : m.Rect) :
    ∀ (k : Nat) (s t : Pos), m.nat_in_bounds s → NearestDest m s t k →
      ∀ fuel, 5 ^ (m.ncols * m.nrows) < fuel →
      ∃ p, pf_iter fuel m s k = .ok p ∧ m.sq p = Square.Destination := by
  intro k
  induction k with
  | zero =>
    intro s t hs hnd fuel hf
    have hts : t = s := reachN_zero hnd.2.1.1
    exact ⟨s, rfl, by rw [← hts]; exact hnd.1⟩
  | succ k ihk =>
    intro s t hs hnd fuel hf
    have hsnd : m.sq s ≠ Square.Destination := by
      intro hsd
      have := hnd.2.2 s 0 hsd (isMinDist_self m s)
      omega
    obtain ⟨r, hok⟩ := pf_search_completes hr hs hnd.1 hnd.2.1 hf
    rcases pf_search_correct hr hok with ⟨hsd, _⟩ | ⟨k0, t0, hnd0, hadj, htrav, hmin1, hndr⟩
    · exact absurd hsd hsnd
    · have hk0 : k0 = k := by
        have h1 := hnd.2.2 t0 (k0 + 1) hnd0.1 hnd0.2.1
        have h2 := hnd0.2.2 t (k + 1) hnd.1 hnd.2.1
        omega
      subst hk0
      obtain ⟨p, hp1, hp2⟩ := ihk r t0 (trav_in_bounds hr htrav) hndr fuel hf
      refine ⟨p, ?_, hp2⟩
      rw [pf_iter_succ_head, hok]
      exact hp1

/-- The end-to-end example map of the spec (`"^ #\n# $"`), used to
instantiate the shortest-path theorem. -/
def wmap : Map :=
  ⟨[[Square.SpawnPoint, Square.Empty, Square.Wall],
    [Square.Wall, Square.Empty, Square.Destination]]⟩

/-- C1: for every rectangular grid and in-bounds start, (i) whenever
`pf_search` returns a cell it is the first hop of a hop-count-minimal
path to a nearest destination, which stays nearest from that cell one
hop closer; (ii) iterating `pf_search` `k` times from a start whose
nearest destination is `k` hops away lands on a Destination cell;
(iii) no intermediate iterate is a Wall cell; (iv) whenever some
destination is reachable, `pf_search` with fuel above `5 ^ (w * h)`
does return a cell (the fueled loop neither exhausts its fuel nor hits
the empty-queue failure); (v) under the same fuel, the `k`-fold
iteration completes and lands on a Destination cell. -/
theorem pf_search_optimal (m : Map) (s : Pos) (hr : m.Rect) (hs : m.nat_in_bounds s) :
    (∀ fuel r, pf_search fuel m s = .ok r →
      (m.sq s = Square.Destination ∧ r = s) ∨
      (∃ k t, NearestDest m s t (k + 1) ∧ Adj s r ∧ m.trav r ∧ IsMinDist m s r 1 ∧
        NearestDest m r t k)) ∧
    (∀ k t, NearestDest m s t k → ∀ fuel p, pf_iter fuel m s k = .ok p →
      m.sq p = Square.Destination) ∧
    (∀ k t, NearestDest m s t k → ∀ fuel j p, 1 ≤ j → j ≤ k →
      pf_iter fuel m s j = .ok p → m.sq p ≠ Square.Wall) ∧
    (∀ t k, m.sq t = Square.Destination → IsMinDist m s t k →
      ∀ fuel, 5 ^ (m.ncols * m.nrows) < fuel → ∃ r, pf_search fuel m s = .ok r) ∧
    (∀ k t, NearestDest m s t k → ∀ fuel, 5 ^ (m.ncols * m.nrows) < fuel →
      ∃ p, pf_iter fuel m s k = .ok p ∧ m.sq p = Square.Destination) := by
  refine ⟨?_, ?_, ?_, ?_, ?_⟩
  · intro fuel r h
    exact pf_search_correct hr h
  · intro k t hnd fuel p hp
    exact (pf_iter_correct hr k s t hnd fuel).1 p hp
  · intro k t hnd fuel j p h1 h2 hp
    have := (pf_iter_correct hr k s t hnd fuel).2 j p h1 h2 hp
    rcases this with h | h <;> rw [h] <;> decide
  · intro t k ht hk fuel hf
    exact pf_search_completes hr hs ht hk hf
  · intro k t hnd fuel hf
    exact pf_iter_completes hr k s t hs hnd fuel hf

theorem pf_search_optimal_witness :
    (Map.Rect wmap ∧ Map.nat_in_bounds wmap (0, 0)) ∧
    ((∀ fuel r, pf_search fuel wmap (0, 0) = .ok r →
        (Map.sq wmap (0, 0) = Square.Destination ∧ r = (0, 0)) ∨
        (∃ k t, NearestDest wmap (0, 0) t (k + 1) ∧ Adj (0, 0) r ∧ Map.trav wmap r ∧
          IsMinDist wmap (0, 0) r 1 ∧ NearestDest wmap r t k)) ∧
      (∀ k t, NearestDest wmap (0, 0) t k → ∀ fuel p, pf_iter fuel wmap (0, 0) k = .ok p →
        Map.sq wmap p = Square.Destination) ∧
      (∀ k t, NearestDest wmap (0, 0) t k → ∀ fuel j p, 1 ≤ j → j ≤ k →
        pf_iter fuel wmap (0, 0) j = .ok p → Map.sq wmap p ≠ Square.Wall) ∧
      (∀ t k, Map.sq wmap t = Square.Destination → IsMinDist wmap (0, 0) t k →
        ∀ fuel, 5 ^ (Map.ncols wmap * Map.nrows wmap) < fuel →
          ∃ r, pf_search fuel wmap (0, 0) = .ok r) ∧
      (∀ k t, NearestDest wmap (0, 0) t k →
        ∀ fuel, 5 ^ (Map.ncols wmap * Map.nrows wmap) < fuel →
          ∃ p, pf_iter fuel wmap (0, 0) k = .ok p ∧ Map.sq wmap p = Square.Destination)) :=
  ⟨⟨by decide, by decide⟩, pf_search_optimal wmap (0, 0) (by decide) (by decide)⟩

end TInv
